import Mathlib

/-!
# WikiGraph binary link store: a shallow embedding

This file embeds the writer (`WikiLinkWriter`) and reader (`WikiLinkReader`)
of `src/WikiGraph.py` as executable Lean functions over byte lists
(`List Nat`, each element a byte value), and proves the testable
properties of the specification against them.

Bytes are modelled as natural numbers; files as `List Nat`; Python dicts as
association lists with Python's insertion-order update semantics; titles as
`List Char`.  The external `varint` library and `zlib` are modelled from the
specification (see the doc comments on those definitions).
-/

deriving instance DecidableEq for Except

namespace WikiGraph

/-- A Wikipedia article title, as a sequence of characters. -/
abbrev Title := List Char

/-! ## Little-endian integer serialization (`struct.pack`/`unpack`) -/

/-- `struct.pack('<I', n)`: four little-endian bytes. -/
def u32le (n : Nat) : List Nat :=
  [n % 256, n / 256 % 256, n / 65536 % 256, n / 16777216 % 256]

/-- `struct.pack('<Q', n)`: eight little-endian bytes. -/
def u64le (n : Nat) : List Nat :=
  [n % 256, n / 256 % 256, n / 65536 % 256, n / 16777216 % 256,
   n / 4294967296 % 256, n / 1099511627776 % 256,
   n / 281474976710656 % 256, n / 72057594037927936 % 256]

/-- The byte of `file` at absolute position `pos` (0 beyond the end). -/
def byteAt (file : List Nat) (pos : Nat) : Nat := file.getD pos 0

/-- `struct.unpack('<I', file[pos:pos+4])`. -/
def readU32 (file : List Nat) (pos : Nat) : Nat :=
  byteAt file pos + 256 * byteAt file (pos + 1) +
    65536 * byteAt file (pos + 2) + 16777216 * byteAt file (pos + 3)

/-- `struct.unpack('<Q', file[pos:pos+8])`. -/
def readU64 (file : List Nat) (pos : Nat) : Nat :=
  byteAt file pos + 256 * byteAt file (pos + 1) +
    65536 * byteAt file (pos + 2) + 16777216 * byteAt file (pos + 3) +
    4294967296 * byteAt file (pos + 4) + 1099511627776 * byteAt file (pos + 5) +
    281474976710656 * byteAt file (pos + 6) +
    72057594037927936 * byteAt file (pos + 7)

/-- `f.seek(pos); f.write(bytes)` on an already-written file: overwrite in
place, leaving the rest unchanged. -/
def writeAt (file : List Nat) (pos : Nat) (bs : List Nat) : List Nat :=
  file.take pos ++ bs ++ file.drop (pos + bs.length)

theorem u32le_length (n : Nat) : (u32le n).length = 4 := rfl

theorem u64le_length (n : Nat) : (u64le n).length = 8 := rfl

theorem byteAt_of_drop (file rest : List Nat) (pos i : Nat)
    (h : file.drop pos = rest) : byteAt file (pos + i) = byteAt rest i := by
  unfold byteAt
  rw [List.getD_eq_getElem?_getD, List.getD_eq_getElem?_getD, ← h,
    List.getElem?_drop]

theorem byteAt_cons_succ (b : Nat) (l : List Nat) (i : Nat) :
    byteAt (b :: l) (i + 1) = byteAt l i := rfl

/-- Reading back a `u32le`-serialized value below `2^32`. -/
theorem readU32_of_drop (file rest : List Nat) (pos n : Nat)
    (h : file.drop pos = u32le n ++ rest) (hn : n < 4294967296) :
    readU32 file pos = n := by
  unfold readU32
  have h0 := byteAt_of_drop file _ pos 0 h
  have h1 := byteAt_of_drop file _ pos 1 h
  have h2 := byteAt_of_drop file _ pos 2 h
  have h3 := byteAt_of_drop file _ pos 3 h
  simp only [Nat.add_zero] at h0
  rw [h0, h1, h2, h3]
  unfold u32le byteAt
  simp only [List.cons_append, List.nil_append, List.getD_cons_zero,
    List.getD_cons_succ]
  omega

/-- Reading back a `u64le`-serialized value below `2^64`. -/
theorem readU64_of_drop (file rest : List Nat) (pos n : Nat)
    (h : file.drop pos = u64le n ++ rest) (hn : n < 18446744073709551616) :
    readU64 file pos = n := by
  unfold readU64
  have h0 := byteAt_of_drop file _ pos 0 h
  have h1 := byteAt_of_drop file _ pos 1 h
  have h2 := byteAt_of_drop file _ pos 2 h
  have h3 := byteAt_of_drop file _ pos 3 h
  have h4 := byteAt_of_drop file _ pos 4 h
  have h5 := byteAt_of_drop file _ pos 5 h
  have h6 := byteAt_of_drop file _ pos 6 h
  have h7 := byteAt_of_drop file _ pos 7 h
  simp only [Nat.add_zero] at h0
  rw [h0, h1, h2, h3, h4, h5, h6, h7]
  unfold u64le byteAt
  simp only [List.cons_append, List.nil_append, List.getD_cons_zero,
    List.getD_cons_succ]
  omega

/-! ## The varint codec

Modelled from the spec, §4.1: the source imports the external `varint`
library (unsigned LEB128: seven payload bits per byte, little-endian groups,
high bit set on all non-terminal bytes; `encode 0 = [0x00]`).  The encoder
uses explicit fuel so that it is structurally recursive (the fuel is
provably irrelevant once it exceeds the value being encoded). -/

def varintEncodeAux : Nat → Nat → List Nat
  | 0, _ => []
  | fuel + 1, n =>
    if n < 128 then [n] else (n % 128 + 128) :: varintEncodeAux fuel (n / 128)

/-- `varint.encode n`: unsigned LEB128 bytes of `n`. -/
def varintEncode (n : Nat) : List Nat := varintEncodeAux (n + 1) n

theorem varintEncodeAux_fuel (n : Nat) : ∀ f g : Nat, n < f → n < g →
    varintEncodeAux f n = varintEncodeAux g n := by
  induction n using Nat.strong_induction_on with
  | _ n ih =>
    intro f g hf hg
    match f, hf, g, hg with
    | f + 1, hf, g + 1, hg =>
      simp only [varintEncodeAux]
      by_cases h : n < 128
      · simp [h]
      · simp only [h, if_false, List.cons.injEq, true_and]
        exact ih (n / 128) (Nat.div_lt_self (by omega) (by omega)) f g
          (by omega) (by omega)

/-- The defining recursion of `varintEncode`. -/
theorem varintEncode_eq (n : Nat) :
    varintEncode n =
      if n < 128 then [n] else (n % 128 + 128) :: varintEncode (n / 128) := by
  unfold varintEncode
  conv => lhs; unfold varintEncodeAux
  by_cases h : n < 128
  · simp [h]
  · simp only [h, if_false, List.cons.injEq, true_and]
    exact varintEncodeAux_fuel (n / 128) n (n / 128 + 1) (by omega) (by omega)

/-- `varint.decode_bytes`: consume LEB128 groups until a byte below 0x80;
`none` when the input ends first.  `shift`/`acc` mirror the library's
running shift and accumulator. -/
def varintDecodeAux : List Nat → Nat → Nat → Option Nat
  | [], _, _ => none
  | b :: rest, shift, acc =>
    if b < 128 then some (acc + b * 2 ^ shift)
    else varintDecodeAux rest (shift + 7) (acc + b % 128 * 2 ^ shift)

/-- `varint.decode_bytes data`: decode the varint at the head of `data`. -/
def varintDecodeBytes (data : List Nat) : Option Nat := varintDecodeAux data 0 0

theorem varintDecodeAux_encode (n : Nat) :
    ∀ (rest : List Nat) (shift acc : Nat),
      varintDecodeAux (varintEncode n ++ rest) shift acc =
        some (acc + n * 2 ^ shift) := by
  induction n using Nat.strong_induction_on with
  | _ n ih =>
    intro rest shift acc
    rw [varintEncode_eq]
    by_cases h : n < 128
    · simp [varintDecodeAux, h]
    · simp only [h, if_false, List.cons_append, varintDecodeAux]
      have hb : ¬(n % 128 + 128 < 128) := by omega
      simp only [hb, if_false]
      have hmod : (n % 128 + 128) % 128 = n % 128 := by omega
      rw [hmod, ih (n / 128) (Nat.div_lt_self (by omega) (by omega))]
      have h128 : n % 128 + 128 * (n / 128) = n := Nat.mod_add_div n 128
      have key : acc + n % 128 * 2 ^ shift + n / 128 * 2 ^ (shift + 7) =
          acc + n * 2 ^ shift := by
        calc acc + n % 128 * 2 ^ shift + n / 128 * 2 ^ (shift + 7)
            = acc + (n % 128 + 128 * (n / 128)) * 2 ^ shift := by
              rw [pow_add]; ring
          _ = acc + n * 2 ^ shift := by rw [h128]
      rw [key]

/-- Canonical-prefix decoding: the decoder recovers exactly the encoded
value from an encoder-produced prefix. -/
theorem varintDecodeBytes_encode (n : Nat) (rest : List Nat) :
    varintDecodeBytes (varintEncode n ++ rest) = some n := by
  unfold varintDecodeBytes
  rw [varintDecodeAux_encode]
  simp

/-! ## Python dicts as association lists

A Python dict preserves insertion order: updating an existing key keeps its
position, inserting a new key appends it at the end. -/

/-- `m[k] = v` on a Python dict. -/
def dictSet {α β : Type} [DecidableEq α] : List (α × β) → α → β → List (α × β)
  | [], k, v => [(k, v)]
  | (k', v') :: rest, k, v =>
    if k' = k then (k, v) :: rest else (k', v') :: dictSet rest k v

/-- `m.get(k)` on a Python dict. -/
def dictGet? {α β : Type} [DecidableEq α] : List (α × β) → α → Option β
  | [], _ => none
  | (k', v') :: rest, k => if k' = k then some v' else dictGet? rest k

theorem dictGet?_cons {α β : Type} [DecidableEq α]
    (p : α × β) (rest : List (α × β)) (k : α) :
    dictGet? (p :: rest) k = if p.1 = k then some p.2 else dictGet? rest k := rfl

theorem dictSet_cons {α β : Type} [DecidableEq α]
    (p : α × β) (rest : List (α × β)) (k : α) (v : β) :
    dictSet (p :: rest) k v =
      if p.1 = k then (k, v) :: rest else p :: dictSet rest k v := rfl

theorem dictGet?_dictSet_self {α β : Type} [DecidableEq α]
    (m : List (α × β)) (k : α) (v : β) : dictGet? (dictSet m k v) k = some v := by
  induction m with
  | nil => simp [dictSet, dictGet?]
  | cons p rest ih =>
    rw [dictSet_cons]
    by_cases h : p.1 = k
    · rw [if_pos h, dictGet?_cons, if_pos rfl]
    · rw [if_neg h, dictGet?_cons, if_neg h]
      exact ih

theorem dictGet?_dictSet_ne {α β : Type} [DecidableEq α]
    (m : List (α × β)) (k k' : α) (v : β) (h : k' ≠ k) :
    dictGet? (dictSet m k v) k' = dictGet? m k' := by
  induction m with
  | nil =>
    show (if k = k' then some v else none) = none
    rw [if_neg (Ne.symm h)]
  | cons p rest ih =>
    rw [dictSet_cons]
    by_cases hp : p.1 = k
    · rw [if_pos hp, dictGet?_cons, dictGet?_cons, if_neg (Ne.symm h),
        if_neg (by rw [hp]; exact Ne.symm h)]
    · rw [if_neg hp, dictGet?_cons, dictGet?_cons, ih]

/-- Setting a key absent from `m` appends the pair at the end. -/
theorem dictSet_of_not_mem {α β : Type} [DecidableEq α]
    (m : List (α × β)) (k : α) (v : β) (h : dictGet? m k = none) :
    dictSet m k v = m ++ [(k, v)] := by
  induction m with
  | nil => rfl
  | cons p rest ih =>
    rw [dictGet?_cons] at h
    by_cases hp : p.1 = k
    · rw [if_pos hp] at h; exact absurd h (by simp)
    · rw [if_neg hp] at h
      rw [dictSet_cons, if_neg hp, ih h, List.cons_append]

theorem dictGet?_append_right {α β : Type} [DecidableEq α]
    (m m' : List (α × β)) (k : α) (h : dictGet? m k = none) :
    dictGet? (m ++ m') k = dictGet? m' k := by
  induction m with
  | nil => rfl
  | cons p rest ih =>
    rw [dictGet?_cons] at h
    by_cases hp : p.1 = k
    · rw [if_pos hp] at h; exact absurd h (by simp)
    · rw [if_neg hp] at h
      rw [List.cons_append, dictGet?_cons, if_neg hp]
      exact ih h

theorem dictGet?_eq_some_of_mem_nodup {α β : Type} [DecidableEq α]
    (m : List (α × β)) (k : α) (v : β)
    (hnd : (m.map Prod.fst).Nodup) (hmem : (k, v) ∈ m) :
    dictGet? m k = some v := by
  induction m with
  | nil => simp at hmem
  | cons p rest ih =>
    simp only [List.map_cons, List.nodup_cons] at hnd
    rcases List.mem_cons.mp hmem with h | h
    · rw [← h]; simp [dictGet?]
    · have hne : p.1 ≠ k := by
        intro he
        exact hnd.1 (he ▸ (List.mem_map.mpr ⟨(k, v), h, rfl⟩))
      simp only [dictGet?, hne, if_false]
      exact ih hnd.2 h

theorem mem_of_dictGet?_eq_some {α β : Type} [DecidableEq α]
    (m : List (α × β)) (k : α) (v : β) (h : dictGet? m k = some v) :
    (k, v) ∈ m := by
  induction m with
  | nil => simp [dictGet?] at h
  | cons p rest ih =>
    by_cases hp : p.1 = k
    · rw [dictGet?_cons, if_pos hp] at h
      have h2 : p.2 = v := Option.some_injective _ h
      have hpe : p = (k, v) := by rw [← hp, ← h2]
      exact List.mem_cons.mpr (Or.inl hpe.symm)
    · rw [dictGet?_cons, if_neg hp] at h
      exact List.mem_cons_of_mem p (ih h)

theorem dictSet_map_fst_of_mem {α β : Type} [DecidableEq α]
    (m : List (α × β)) (k : α) (v v' : β) (h : dictGet? m k = some v') :
    (dictSet m k v).map Prod.fst = m.map Prod.fst := by
  induction m with
  | nil => simp [dictGet?] at h
  | cons p rest ih =>
    by_cases hp : p.1 = k
    · simp [dictSet, hp]
    · simp only [dictGet?, hp, if_false] at h
      simp [dictSet, hp, ih h]

/-! ## Decimal rendering (`f"{node_id}"`) -/

def decDigitsAux : Nat → Nat → List Char
  | 0, _ => []
  | fuel + 1, n =>
    if n < 10 then [Char.ofNat (48 + n)]
    else decDigitsAux fuel (n / 10) ++ [Char.ofNat (48 + n % 10)]

/-- The decimal digits of `n`, most significant first (Python `f"{n}"`). -/
def decDigits (n : Nat) : List Char := decDigitsAux (n + 1) n

theorem decDigitsAux_fuel (n : Nat) : ∀ f g : Nat, n < f → n < g →
    decDigitsAux f n = decDigitsAux g n := by
  induction n using Nat.strong_induction_on with
  | _ n ih =>
    intro f g hf hg
    match f, hf, g, hg with
    | f + 1, hf, g + 1, hg =>
      simp only [decDigitsAux]
      by_cases h : n < 10
      · simp [h]
      · simp only [h, if_false]
        rw [ih (n / 10) (Nat.div_lt_self (by omega) (by omega)) f g
          (by omega) (by omega)]

/-- The defining recursion of `decDigits`. -/
theorem decDigits_eq (n : Nat) :
    decDigits n =
      if n < 10 then [Char.ofNat (48 + n)]
      else decDigits (n / 10) ++ [Char.ofNat (48 + n % 10)] := by
  unfold decDigits
  conv => lhs; unfold decDigitsAux
  by_cases h : n < 10
  · simp [h]
  · simp only [h, if_false]
    rw [decDigitsAux_fuel (n / 10) n (n / 10 + 1) (by omega) (by omega)]

/-! ## The writer (`WikiLinkWriter`)

`process_jsonl_dump` is embedded with the input already parsed: the JSONL
stream is a sequence of `(node_title, linked_titles)` records (each
`data.items()` pair of each line, in order).  The writer state carries the
title→id dict `node_map`, the id counter, the sidecar lines written to
`mapfile`, and the first-pass accumulator `nodes_with_edges`. -/

/-- One sidecar line: `f"{node_id}\t{title}\n"`. -/
def sidecarLine (node_id : Nat) (t : Title) : List Char :=
  decDigits node_id ++ '\t' :: (t ++ ['\n'])

structure WriterState where
  node_map : List (Title × Nat)
  current_node_id : Nat
  mapfile : List (List Char)
  nodes_with_edges : List (Nat × List Nat)
deriving DecidableEq, Repr

def initialWriter : WriterState := ⟨[], 0, [], []⟩

/-- The interning step the source performs for the node title and for each
linked title: `if title not in self.node_map: assign fresh id, append a
sidecar line, bump the counter`. -/
def internTitle (st : WriterState) (t : Title) : WriterState :=
  match dictGet? st.node_map t with
  | some _ => st
  | none =>
    { st with
        node_map := dictSet st.node_map t st.current_node_id,
        mapfile := st.mapfile ++ [sidecarLine st.current_node_id t],
        current_node_id := st.current_node_id + 1 }

/-- The body of the `for title in linked_titles` loop: intern the linked
title and append its id to `edge_ids`. -/
def internEdges (acc : WriterState × List Nat) (t : Title) :
    WriterState × List Nat :=
  let st' := internTitle acc.1 t
  (st', acc.2 ++ [(dictGet? st'.node_map t).getD 0])

/-- First-pass handling of one `(node_title, linked_titles)` record:
intern the source, intern each destination collecting `edge_ids`, and store
`nodes_with_edges[node_id] = edge_ids` only when `edge_ids` is non-empty. -/
def processRecord (st : WriterState) (r : Title × List Title) : WriterState :=
  let st1 := internTitle st r.1
  let node_id := (dictGet? st1.node_map r.1).getD 0
  let p := r.2.foldl internEdges (st1, [])
  if p.2.isEmpty then p.1
  else { p.1 with nodes_with_edges := dictSet p.1.nodes_with_edges node_id p.2 }

/-- The writer state after the first pass over the input sequence. -/
def pass1 (S : List (Title × List Title)) : WriterState :=
  S.foldl processRecord initialWriter

/-! ### The edge-list codec (`encode_edges`) -/

/-- The delta loop of `encode_edges`: `varint(edge - prev)` for each edge,
updating `prev`. -/
def deltaBytes (prev : Nat) : List Nat → List Nat
  | [] => []
  | e :: rest => varintEncode (e - prev) ++ deltaBytes e rest

/-- `sorted(edges)` (Python's ascending stable sort). -/
def pySorted (edges : List Nat) : List Nat :=
  List.insertionSort (fun a b => a ≤ b) edges

/-- `WikiLinkWriter.encode_edges`: varint edge count, then delta-varints of
the ascending sequence (no deduplication). -/
def encode_edges (edges : List Nat) : List Nat :=
  varintEncode edges.length ++ deltaBytes 0 (pySorted edges)

/-! ### The block compressor -/

/-- Modelled from the spec: §4.3 — `zlib` is an external library; the spec
describes the block compressor as "a deterministic byte-in/byte-out
deflate-compatible codec", contractually only deterministic and lossless
(`decompress (compress b) = b`).  We model it by that contract, taking the
compressed stream to be the payload itself (a stored deflate stream). -/
def zlibCompress (b : List Nat) : List Nat := b

/-- Modelled from the spec: §4.3 — the inverse direction of the codec. -/
def zlibDecompress (b : List Nat) : Option (List Nat) := some b

theorem zlib_roundTrip (b : List Nat) : zlibDecompress (zlibCompress b) = some b :=
  rfl

/-! ### Second pass: block emission, index, header patch -/

/-- The bytes written for one node: `u32_le(len(compressed)) || compressed`. -/
def blockBytes (edge_ids : List Nat) : List Nat :=
  let compressed := zlibCompress (encode_edges edge_ids)
  u32le compressed.length ++ compressed

/-- The block-emission loop: writes a block per `nodes_with_edges` entry,
recording `(node_id, current_pos)` in the index, `current_pos` tracking
`outfile.tell()`. Returns the body bytes and the (unsorted) index. -/
def writeBlocks : List (Nat × List Nat) → Nat → List Nat × List (Nat × Nat)
  | [], _ => ([], [])
  | (node_id, edge_ids) :: rest, current_pos =>
    let b := blockBytes edge_ids
    let pr := writeBlocks rest (current_pos + b.length)
    (b ++ pr.1, (node_id, current_pos) :: pr.2)

/-- Python tuple comparison on `(node_id, pos)` pairs, as used by
`sorted(self.index)`. -/
def indexLe (p q : Nat × Nat) : Prop := p.1 < q.1 ∨ (p.1 = q.1 ∧ p.2 ≤ q.2)

instance indexLe.instDecidable : DecidableRel indexLe := fun p q =>
  inferInstanceAs (Decidable (p.1 < q.1 ∨ (p.1 = q.1 ∧ p.2 ≤ q.2)))

instance indexLe.instIsTotal : IsTotal (Nat × Nat) indexLe :=
  ⟨by intro a b; unfold indexLe; omega⟩

instance indexLe.instIsTrans : IsTrans (Nat × Nat) indexLe :=
  ⟨by intro a b c; unfold indexLe; omega⟩

/-- `sorted(self.index)`. -/
def sortedIndex (index : List (Nat × Nat)) : List (Nat × Nat) :=
  List.insertionSort indexLe index

/-- The serialized index: `u64_le(node_id) || u64_le(pos)` per entry. -/
def indexBytes : List (Nat × Nat) → List Nat
  | [] => []
  | (node_id, pos) :: rest => u64le node_id ++ u64le pos ++ indexBytes rest

def MAGIC : List Nat := [87, 76, 73, 78, 75, 78, 69, 84]

def VERSION : Nat := 1

/-- `write_header`: MAGIC, then `struct.pack('<II', VERSION, 0)` — the node
count is a placeholder to be patched later. -/
def write_header : List Nat := MAGIC ++ u32le VERSION ++ u32le 0

/-- The index entries as serialized at finalization (sorted). -/
def writtenIndex (S : List (Title × List Title)) : List (Nat × Nat) :=
  sortedIndex (writeBlocks (pass1 S).nodes_with_edges 16).2

/-- The whole binary file produced by `process_jsonl_dump`: header, blocks,
sorted index, trailing `u64_le(index_pos)` — then `seek(8)` and write
`u32_le(current_node_id)` (the header patch, which lands on the version
field at offset 8). -/
def process_jsonl_dump (S : List (Title × List Title)) : List Nat :=
  let st := pass1 S
  let pr := writeBlocks st.nodes_with_edges 16
  let index_pos := 16 + pr.1.length
  let unpatched :=
    write_header ++ pr.1 ++ indexBytes (sortedIndex pr.2) ++ u64le index_pos
  writeAt unpatched 8 (u32le st.current_node_id)

/-! ## Decoder loops (reader side and `verify_encoding`) -/

/-- The delta-decode loop shared by `verify_encoding` and `get_neighbors`:
read `count` varints, advance by `len(varint.encode(delta))` each step and
accumulate `prev += delta`.  `none` models a decode exception. -/
def decodeDeltas : Nat → Nat → List Nat → Option (List Nat)
  | 0, _, _ => some []
  | k + 1, prev, data =>
    match varintDecodeBytes data with
    | none => none
    | some delta =>
      (decodeDeltas k (prev + delta)
        (data.drop (varintEncode delta).length)).map
        (fun l => (prev + delta) :: l)

/-- The decode half of `WikiLinkWriter.verify_encoding`: read the edge
count, then decode that many deltas. -/
def decodeEdgesVerify (encoded_data : List Nat) : Option (List Nat) :=
  match varintDecodeBytes encoded_data with
  | none => none
  | some num_edges =>
    decodeDeltas num_edges 0 (encoded_data.drop (varintEncode num_edges).length)

/-- `WikiLinkWriter.verify_encoding`: decode `encoded_data` and compare with
the sorted original (`none` models an exception escaping the decode). -/
def verify_encoding (original_edges encoded_data : List Nat) : Option Bool :=
  (decodeEdgesVerify encoded_data).map
    (fun decoded_edges => decide (pySorted original_edges = decoded_edges))

/-- The payload decode of `WikiLinkReader.get_neighbors`: read `num_edges`;
an explicit empty answer when it is zero; otherwise decode `num_edges`
deltas.  Bytes left over after the last delta are not examined. -/
def decodeBlockPayload (data : List Nat) : Option (List Nat) :=
  match varintDecodeBytes data with
  | none => none
  | some num_edges =>
    if num_edges = 0 then some []
    else decodeDeltas num_edges 0 (data.drop (varintEncode num_edges).length)

/-! ## The title-map sidecar parsing (`load_title_map`) -/

/-- The characters Python's `str.strip()` removes, i.e. those with
`str.isspace()` true: U+0009–U+000D, U+001C–U+0020, U+0085 (NEL),
U+00A0 (NBSP), U+1680 (Ogham space), U+2000–U+200A, U+2028, U+2029,
U+202F, U+205F and U+3000 — the complete set for CPython's Unicode
database. -/
def pyWhitespace (c : Char) : Bool :=
  (9 ≤ c.toNat && c.toNat ≤ 13) || (28 ≤ c.toNat && c.toNat ≤ 32) ||
    c.toNat == 133 || c.toNat == 160 || c.toNat == 5760 ||
    (8192 ≤ c.toNat && c.toNat ≤ 8202) || c.toNat == 8232 ||
    c.toNat == 8233 || c.toNat == 8239 || c.toNat == 8287 ||
    c.toNat == 12288

/-- `line.strip()`: drop whitespace from both ends. -/
def pyStrip (s : List Char) : List Char :=
  ((s.dropWhile pyWhitespace).reverse.dropWhile pyWhitespace).reverse

/-- `s.split('\t')`. -/
def splitTab : List Char → List (List Char)
  | [] => [[]]
  | c :: rest =>
    if c = '\t' then [] :: splitTab rest
    else
      match splitTab rest with
      | [] => [[c]]
      | part :: parts => (c :: part) :: parts

/-- `int(s)` on the id field: a non-empty all-digit string parses to its
decimal value; anything else raises (`none`). -/
def pyInt? (s : List Char) : Option Nat :=
  if !s.isEmpty && s.all Char.isDigit then
    some (s.foldl (fun acc c => acc * 10 + (c.toNat - 48)) 0)
  else none

/-- The source's `BiDict`: paired forward (id→title) and backward
(title→id) dicts. -/
structure BiDict where
  forward : List (Nat × Title)
  backward : List (Title × Nat)
deriving DecidableEq, Repr

def BiDict.empty : BiDict := ⟨[], []⟩

/-- `BiDict.__setitem__`: set both directions. -/
def BiDict.setItem (d : BiDict) (node_id : Nat) (t : Title) : BiDict :=
  ⟨dictSet d.forward node_id t, dictSet d.backward t node_id⟩

/-- `BiDict` lookup with an id key: in the source the runtime type dispatch
sends integer keys to the forward dict (titles never equal an int). -/
def BiDict.getTitle (d : BiDict) (node_id : Nat) : Option Title :=
  dictGet? d.forward node_id

/-- `BiDict` lookup with a title key: resolved by the backward dict. -/
def BiDict.getId (d : BiDict) (t : Title) : Option Nat :=
  dictGet? d.backward t

/-- The per-line body of `load_title_map`: `strip` the line, split on TAB,
require exactly two fields (`node_id, title = ...` unpacking) and an
integer id; a line that fails either step raises inside the `try` and is
skipped (printed, not fatal). -/
def loadLine (bd : BiDict) (line : List Char) : BiDict :=
  match splitTab (pyStrip line) with
  | [a, b] =>
    match pyInt? a with
    | some node_id => bd.setItem node_id b
    | none => bd
  | _ => bd

/-- `WikiLinkReader.load_title_map`. -/
def load_title_map (map_lines : List (List Char)) : BiDict :=
  map_lines.foldl loadLine BiDict.empty

/-! ## The reader (`WikiLinkReader`) -/

/-- `WikiLinkReader.load_index`: scan 16-byte strides from `pos` while
`pos < len(file) - 8`; a stride that cannot supply 16 bytes raises inside
the `try` and breaks the loop.  Structured with fuel (provably sufficient at
`file.length + 1`). -/
def loadIndexLoop (file : List Nat) : Nat → Nat → List (Nat × Nat)
  | 0, _ => []
  | fuel + 1, pos =>
    if pos < file.length - 8 then
      if pos + 16 ≤ file.length then
        (readU64 file pos, readU64 file (pos + 8)) ::
          loadIndexLoop file fuel (pos + 16)
      else []
    else []

def load_index (file : List Nat) (index_pos : Nat) : List (Nat × Nat) :=
  loadIndexLoop file (file.length + 1) index_pos

/-- The binary-search loop of `WikiLinkReader.find_block` (`left`/`right`
are Python ints, so `Int`; list indexing is total here via `getD`, faithful
while `0 ≤ left` and `right < len`).  Fuel is provably sufficient at
`index.length + 1`. -/
def findBlockLoop (index : List (Nat × Nat)) (node_id : Nat) :
    Nat → Int → Int → Option Nat
  | 0, _, _ => none
  | fuel + 1, left, right =>
    if left ≤ right then
      let mid := (left + right) / 2
      let cur := index.getD mid.toNat (0, 0)
      if cur.1 = node_id then some cur.2
      else if cur.1 < node_id then
        findBlockLoop index node_id fuel (mid + 1) right
      else findBlockLoop index node_id fuel left (mid - 1)
    else none

/-- `WikiLinkReader.find_block`: raises on an empty index, otherwise exact
binary search returning the block position or `None`. -/
def find_block (index : List (Nat × Nat)) (node_id : Nat) :
    Except String (Option Nat) :=
  if index.isEmpty then .error "Index is empty - no blocks found"
  else
    .ok (findBlockLoop index node_id (index.length + 1) 0
      ((index.length : Int) - 1))

structure Reader where
  version : Nat
  node_count : Nat
  index_pos : Nat
  index : List (Nat × Nat)
  title_map : BiDict
  file : List Nat
deriving DecidableEq, Repr

/-- `WikiLinkReader.__init__`: mmap the binary file, verify MAGIC, unpack
`version` and `node_count` from bytes 8..16, read the trailing 8 bytes as
the index position, load the index and the title map.  `none` models a
raised exception (magic mismatch, or header unpack on a short file). -/
def readerInit (file : List Nat) (map_lines : List (List Char)) :
    Option Reader :=
  if file.take 8 = MAGIC then
    if 16 ≤ file.length then
      let index_pos := readU64 file (file.length - 8)
      some { version := readU32 file 8, node_count := readU32 file 12,
             index_pos := index_pos, index := load_index file index_pos,
             title_map := load_title_map map_lines, file := file }
    else none
  else none

/-- `WikiLinkReader.get_neighbors`: binary-search the index; `None` means
no edges (`[]`); otherwise read the `u32_le` block size, slice and
decompress the block, and decode the edge list. -/
def get_neighbors (r : Reader) (node_id : Nat) : Except String (List Nat) :=
  match find_block r.index node_id with
  | .error e => .error e
  | .ok none => .ok []
  | .ok (some block_pos) =>
    let block_size := readU32 r.file block_pos
    let compressed := (r.file.drop (block_pos + 4)).take block_size
    match zlibDecompress compressed with
    | none => .error "BlockCorrupt"
    | some data =>
      match decodeBlockPayload data with
      | none => .error "MalformedVarint"
      | some edges => .ok edges

/-- `WikiLinkReader.get_title`. -/
def get_title (r : Reader) (node_id : Nat) : Option Title :=
  r.title_map.getTitle node_id

/-! ## Derived and specification-side notions used by the statements -/

/-- The destination list the writer ends up storing for a source title: the
last input record for that title whose destination list is non-empty
(`nodes_with_edges[node_id] = edge_ids` overwrites, and is skipped for
empty `edge_ids`). -/
def lastStoredDsts (S : List (Title × List Title)) (src : Title) :
    Option (List Title) :=
  S.foldl (fun acc r => if r.1 = src ∧ r.2 ≠ [] then some r.2 else acc) none

/-- The merging reading of the spec's "collapsed per source": the
concatenation of all destination lists recorded for `src`, in input
order.  Stated from the spec's words, for comparison with what the code
does. -/
def specCollapsedDsts (S : List (Title × List Title)) (src : Title) :
    List Title :=
  S.foldl (fun acc r => if r.1 = src then acc ++ r.2 else acc) []

/-- `id_of`: the final id of an interned title. -/
def idOf (S : List (Title × List Title)) (t : Title) : Option Nat :=
  dictGet? (pass1 S).node_map t

/-- `id_of` with the (never-exercised) default 0. -/
def idOfD (S : List (Title × List Title)) (t : Title) : Nat := (idOf S t).getD 0

/-- Plain association lookup by node id, the functional specification of
the binary search. -/
def lookupId (index : List (Nat × Nat)) (node_id : Nat) : Option Nat :=
  (index.find? (fun p => p.1 == node_id)).map Prod.snd

/-- All titles occurring in the input sequence (sources and destinations). -/
def titlesOf (S : List (Title × List Title)) : List Title :=
  S.foldr (fun r acc => r.1 :: (r.2 ++ acc)) []

/-- Every integer the writer serializes fits its fixed-width field
(`struct.pack` would raise otherwise): ids below 2^64, the index position
below 2^64, every compressed block length below 2^32. -/
def writerBoundsOk (S : List (Title × List Title)) : Bool :=
  let st := pass1 S
  let pr := writeBlocks st.nodes_with_edges 16
  decide (st.current_node_id ≤ 18446744073709551616) &&
    decide (16 + pr.1.length < 18446744073709551616) &&
    st.nodes_with_edges.all
      (fun p => decide ((zlibCompress (encode_edges p.2)).length < 4294967296))

/-- A title the sidecar text format transports faithfully: non-empty, free
of TAB, LF and CR (TAB breaks the field split, LF/CR break the line
structure), and not ending in a whitespace character (the reader's
`line.strip()` would eat it along with the newline). -/
def goodTitle (t : Title) : Bool :=
  !t.isEmpty &&
    t.all (fun c => !(c == '\t') && !(c == '\n') && !(c == '\r')) &&
    !pyWhitespace (t.reverse.headD ' ')

/-! ## Edge-list codec round-trip -/

theorem pySorted_sorted (l : List Nat) : List.Sorted (· ≤ ·) (pySorted l) :=
  List.sorted_insertionSort _ l

theorem pySorted_perm (l : List Nat) : (pySorted l).Perm l :=
  List.perm_insertionSort _ l

theorem pySorted_length (l : List Nat) : (pySorted l).length = l.length :=
  (pySorted_perm l).length_eq

theorem chain'_zero_pySorted (l : List Nat) :
    List.Chain' (· ≤ ·) (0 :: pySorted l) := by
  rw [List.chain'_cons']
  exact ⟨fun y _ => Nat.zero_le y, List.Pairwise.chain' (pySorted_sorted l)⟩

/-- The delta-decode loop inverts the delta-encode loop on any ascending
sequence, consuming exactly the encoded bytes and ignoring whatever
follows. -/
theorem decodeDeltas_deltaBytes (l : List Nat) :
    ∀ (prev : Nat) (extra : List Nat), List.Chain' (· ≤ ·) (prev :: l) →
      decodeDeltas l.length prev (deltaBytes prev l ++ extra) = some l := by
  induction l with
  | nil => intro prev extra _; rfl
  | cons e l ih =>
    intro prev extra hchain
    have hpe : prev ≤ e := (List.chain'_cons.mp hchain).1
    have hch : List.Chain' (· ≤ ·) (e :: l) := (List.chain'_cons.mp hchain).2
    show decodeDeltas (l.length + 1) prev
      ((varintEncode (e - prev) ++ deltaBytes e l) ++ extra) = some (e :: l)
    rw [List.append_assoc]
    simp only [decodeDeltas, varintDecodeBytes_encode]
    rw [List.drop_left]
    have he : prev + (e - prev) = e := by omega
    rw [he, ih e extra hch]
    rfl

/-- `verify_encoding`'s decoder inverts `encode_edges` up to sorting. -/
theorem decodeEdgesVerify_encode (l : List Nat) :
    decodeEdgesVerify (encode_edges l) = some (pySorted l) := by
  unfold decodeEdgesVerify encode_edges
  simp only [varintDecodeBytes_encode]
  rw [List.drop_left, ← pySorted_length l,
    ← List.append_nil (deltaBytes 0 (pySorted l))]
  exact decodeDeltas_deltaBytes (pySorted l) 0 [] (chain'_zero_pySorted l)

/-- The reader's block-payload decoder inverts `encode_edges` up to
sorting, for any trailing bytes. -/
theorem decodeBlockPayload_encode (l extra : List Nat) :
    decodeBlockPayload (encode_edges l ++ extra) = some (pySorted l) := by
  unfold decodeBlockPayload encode_edges
  rw [List.append_assoc]
  simp only [varintDecodeBytes_encode]
  by_cases h : l.length = 0
  · have hl : l = [] := List.length_eq_zero.mp h
    subst hl
    simp [pySorted, List.insertionSort]
  · rw [if_neg h, List.drop_left, ← pySorted_length l]
    exact decodeDeltas_deltaBytes (pySorted l) 0 extra (chain'_zero_pySorted l)

/-- C3.  Edge-list codec round-trip: decoding the output of
`encode_edges L` (varint count, then count varint deltas accumulated from
`prev = 0`) yields `sort L` — the implementation does not deduplicate, so
the claim holds in its stated no-dedup variant; `verify_encoding` likewise
reports success on every list. -/
theorem C3_edge_codec_roundTrip (L : List Nat) :
    decodeEdgesVerify (encode_edges L) = some (pySorted L) ∧
      verify_encoding L (encode_edges L) = some true := by
  refine ⟨decodeEdgesVerify_encode L, ?_⟩
  unfold verify_encoding
  rw [decodeEdgesVerify_encode]
  simp

/-- C6 (counterexample).  A decompressed payload consisting of the encoding
of `[5]` followed by one trailing garbage byte decodes to `some [5]`: the
reader returns the edge list instead of failing with `TrailingGarbage`. -/
theorem C6_counterexample :
    decodeBlockPayload (encode_edges [5] ++ [7]) = some [5] ∧
      decodeBlockPayload (encode_edges [5] ++ [7]) ≠ none := by decide

/-- C6 (amended).  When decoding a decompressed block the decoder returns
exactly `count` values and consumes exactly the encoded bytes, but bytes
remaining after the last delta are silently ignored: decoding succeeds with
the same edge list for every suffix of trailing bytes (the code performs no
`TrailingGarbage` check). -/
theorem C6_trailing_bytes_ignored (l extra : List Nat) :
    decodeBlockPayload (encode_edges l ++ extra) = some (pySorted l) :=
  decodeBlockPayload_encode l extra

/-- C2 (code bug).  On input `[("A", ["B"])]` the finalized file has
`node_count = 2` at offset 8 — where the version field lives — and `0` at
offset 12, where the node count belongs: the patch step `seek(8); write
(u32_le(current_node_id))` overwrites the version field (the code's own
comment says it is updating the node count, and `write_header` places the
version at offset 8). -/
theorem C2_header_patch_clobbers_version :
    readU32 (process_jsonl_dump [(['A'], [['B']])]) 8 = 2 ∧
      readU32 (process_jsonl_dump [(['A'], [['B']])]) 12 = 0 ∧
      (pass1 [(['A'], [['B']])]).current_node_id = 2 ∧ VERSION = 1 := by decide

/-- A header-only store whose index region holds the entries
`(5, 16), (3, 16)` — ids strictly decreasing. -/
def indexCorruptFile : List Nat :=
  MAGIC ++ u32le 1 ++ u32le 0 ++
    u64le 5 ++ u64le 16 ++ u64le 3 ++ u64le 16 ++ u64le 16

/-- C5 (counterexample).  Opening a file whose index ids are strictly
decreasing succeeds: the reader loads the out-of-order entries as-is and
raises no `IndexCorrupt`. -/
theorem C5_counterexample :
    (readerInit indexCorruptFile []).isSome = true ∧
      (readerInit indexCorruptFile []).map Reader.index =
        some [(5, 16), (3, 16)] ∧
      ¬ List.Chain' (fun p q : Nat × Nat => p.1 ≤ q.1) [(5, 16), (3, 16)] := by
  refine ⟨by decide, by decide, ?_⟩
  rw [List.chain'_cons]
  rintro ⟨h, -⟩
  simp at h

/-- C5 (amended).  Reader open scans the region `[index_pos, file_len - 8)`
in 16-byte strides but performs no validation at all: once the magic
matches and the header is readable, open succeeds for every index region —
non-monotone ids are loaded as-is and a region that is not a multiple of 16
is silently truncated; no `IndexCorrupt` error exists in the code. -/
theorem C5_open_never_validates_index (file : List Nat)
    (map_lines : List (List Char)) (h1 : file.take 8 = MAGIC)
    (h2 : 16 ≤ file.length) : (readerInit file map_lines).isSome = true := by
  unfold readerInit
  rw [if_pos h1, if_pos h2]
  rfl

/-- Witness for `C5_open_never_validates_index` at a concrete file whose
index region length (24 bytes) is not a multiple of 16. -/
theorem C5_open_never_validates_index_witness :
    ((MAGIC ++ u32le 1 ++ u32le 0 ++ u64le 3 ++ u64le 16 ++ u64le 9 ++
        u64le 16).take 8 = MAGIC ∧
      16 ≤ (MAGIC ++ u32le 1 ++ u32le 0 ++ u64le 3 ++ u64le 16 ++ u64le 9 ++
        u64le 16).length) ∧
      (readerInit (MAGIC ++ u32le 1 ++ u32le 0 ++ u64le 3 ++ u64le 16 ++
        u64le 9 ++ u64le 16) []).isSome = true :=
  ⟨⟨by decide, by decide⟩,
    C5_open_never_validates_index _ [] (by decide) (by decide)⟩

/-- A header-only store whose version field holds 99. -/
def version99File : List Nat := MAGIC ++ u32le 99 ++ u32le 0 ++ u64le 16

/-- C7 (counterexample).  Opening a file whose header version field is 99
(not the supported version 1) succeeds; the reader stores the unknown
version and would serve queries from the file. -/
theorem C7_counterexample :
    (readerInit version99File []).isSome = true ∧
      (readerInit version99File []).map Reader.version = some 99 ∧
      (99 : Nat) ≠ VERSION := by decide

/-- C7 (amended).  Reader open reads the header's version field but never
validates it: for every value `v` that fits the field, a store whose
version field holds `v` opens successfully and the reader simply records
`version = v` — no `UnsupportedVersion` error exists in the code. -/
theorem C7_version_not_checked (v : Nat) (hv : v < 4294967296) :
    ∃ r, readerInit (MAGIC ++ u32le v ++ u32le 0 ++ u64le 16) [] = some r ∧
      r.version = v := by
  set file := MAGIC ++ u32le v ++ u32le 0 ++ u64le 16 with hfile
  have hm : MAGIC.length = 8 := rfl
  have hlen : file.length = 24 := by
    simp [hfile, MAGIC, u32le, u64le]
  have htake : file.take 8 = MAGIC := by
    rw [hfile, ← hm, List.append_assoc, List.append_assoc, List.take_left]
  have hv32 : readU32 file 8 = v := by
    apply readU32_of_drop file (u32le 0 ++ u64le 16) 8 v _ hv
    rw [hfile, ← hm, List.append_assoc, List.append_assoc, List.drop_left]
  unfold readerInit
  rw [if_pos htake, if_pos (show 16 ≤ file.length by rw [hlen]; omega)]
  exact ⟨_, rfl, hv32⟩

/-- Witness for `C7_version_not_checked` at the concrete version value 99. -/
theorem C7_version_not_checked_witness :
    99 < 4294967296 ∧
      ∃ r, readerInit (MAGIC ++ u32le 99 ++ u32le 0 ++ u64le 16) [] = some r ∧
        r.version = 99 :=
  ⟨by decide, C7_version_not_checked 99 (by decide)⟩

/-- C4 (counterexample).  For the store produced from the input
`[("A", [])]` — a title-only node, hence no blocks and an empty index —
`get_neighbors 0` raises `ValueError("Index is empty - no blocks found")`
instead of returning an empty sequence. -/
theorem C4_counterexample :
    (readerInit (process_jsonl_dump [(['A'], [])])
        (pass1 [(['A'], [])]).mapfile).map (fun r => get_neighbors r 0) =
      some (.error "Index is empty - no blocks found") := by decide

/-! ## Correctness of the binary search (`find_block`) -/

theorem nodup_fst_of_pairwise_lt (idx : List (Nat × Nat))
    (hs : List.Pairwise (fun p q : Nat × Nat => p.1 < q.1) idx) :
    (idx.map Prod.fst).Nodup := by
  rw [List.Nodup, List.pairwise_map]
  exact hs.imp Nat.ne_of_lt

theorem getD_fst_lt_of_pairwise (idx : List (Nat × Nat))
    (hs : List.Pairwise (fun p q : Nat × Nat => p.1 < q.1) idx)
    (i j : Nat) (hij : i < j) (hj : j < idx.length) :
    (idx.getD i (0, 0)).1 < (idx.getD j (0, 0)).1 := by
  rw [List.getD_eq_getElem _ _ (lt_trans hij hj), List.getD_eq_getElem _ _ hj]
  exact List.pairwise_iff_getElem.mp hs i j (lt_trans hij hj) hj hij

theorem find?_fst_of_mem_nodup (idx : List (Nat × Nat)) (node_id off : Nat)
    (hnd : (idx.map Prod.fst).Nodup) (hmem : (node_id, off) ∈ idx) :
    idx.find? (fun p => p.1 == node_id) = some (node_id, off) := by
  induction idx with
  | nil => simp at hmem
  | cons p rest ih =>
    simp only [List.map_cons, List.nodup_cons] at hnd
    rcases List.mem_cons.mp hmem with h | h
    · rw [← h]
      exact List.find?_cons_of_pos rest (by simp)
    · have hne : p.1 ≠ node_id := by
        intro he
        exact hnd.1 (he ▸ List.mem_map.mpr ⟨(node_id, off), h, rfl⟩)
      rw [List.find?_cons_of_neg rest (by simpa using hne)]
      exact ih hnd.2 h

theorem lookupId_eq_some (idx : List (Nat × Nat)) (node_id off : Nat)
    (hnd : (idx.map Prod.fst).Nodup) (hmem : (node_id, off) ∈ idx) :
    lookupId idx node_id = some off := by
  unfold lookupId
  rw [find?_fst_of_mem_nodup idx node_id off hnd hmem]
  rfl

theorem lookupId_eq_none (idx : List (Nat × Nat)) (node_id : Nat)
    (hmiss : ∀ p ∈ idx, p.1 ≠ node_id) : lookupId idx node_id = none := by
  unfold lookupId
  rw [List.find?_eq_none.mpr (fun p hp => by simpa using hmiss p hp)]
  rfl

/-- The binary-search loop agrees with plain association lookup on a
strictly sorted index, provided the fuel exceeds the interval size and
every position holding `node_id` lies inside `[left, right]`. -/
theorem findBlockLoop_spec (idx : List (Nat × Nat)) (node_id : Nat)
    (hs : List.Pairwise (fun p q : Nat × Nat => p.1 < q.1) idx) :
    ∀ (fuel : Nat) (left right : Int), 0 ≤ left → right < (idx.length : Int) →
      (∀ j : Nat, j < idx.length → (idx.getD j (0, 0)).1 = node_id →
        left ≤ (j : Int) ∧ (j : Int) ≤ right) →
      (right + 1 - left).toNat < fuel →
      findBlockLoop idx node_id fuel left right = lookupId idx node_id := by
  intro fuel
  induction fuel with
  | zero => intro left right _ _ _ hfuel; omega
  | succ fuel ih =>
    intro left right hl hr hconf hfuel
    simp only [findBlockLoop]
    by_cases hlr : left ≤ right
    · rw [if_pos hlr]
      have hmid_lb : left ≤ (left + right) / 2 := by omega
      have hmid_ub : (left + right) / 2 ≤ right := by omega
      have hmidlt : ((left + right) / 2).toNat < idx.length := by omega
      by_cases heq : (idx.getD ((left + right) / 2).toNat (0, 0)).1 = node_id
      · rw [if_pos heq]
        have hmem : (node_id, (idx.getD ((left + right) / 2).toNat (0, 0)).2) ∈
            idx := by
          rw [← heq]
          rw [List.getD_eq_getElem _ _ hmidlt]
          exact List.getElem_mem hmidlt
        rw [lookupId_eq_some idx node_id _ (nodup_fst_of_pairwise_lt idx hs)
          hmem]
      · rw [if_neg heq]
        by_cases hlt : (idx.getD ((left + right) / 2).toNat (0, 0)).1 < node_id
        · rw [if_pos hlt]
          apply ih ((left + right) / 2 + 1) right (by omega) hr ?_ (by omega)
          intro j hj hjid
          obtain ⟨hj1, hj2⟩ := hconf j hj hjid
          refine ⟨?_, hj2⟩
          by_contra hc
          push_neg at hc
          have hjm : j ≤ ((left + right) / 2).toNat := by omega
          rcases Nat.lt_or_ge j ((left + right) / 2).toNat with hlt2 | hge
          · have := getD_fst_lt_of_pairwise idx hs j _ hlt2 hmidlt
            omega
          · have hje : j = ((left + right) / 2).toNat := by omega
            rw [hje] at hjid
            exact heq hjid
        · rw [if_neg hlt]
          apply ih left ((left + right) / 2 - 1) hl (by omega) ?_ (by omega)
          intro j hj hjid
          obtain ⟨hj1, hj2⟩ := hconf j hj hjid
          refine ⟨hj1, ?_⟩
          by_contra hc
          push_neg at hc
          have hjm : ((left + right) / 2).toNat ≤ j := by omega
          rcases Nat.lt_or_ge ((left + right) / 2).toNat j with hlt2 | hge
          · have := getD_fst_lt_of_pairwise idx hs _ j hlt2 hj
            omega
          · have hje : j = ((left + right) / 2).toNat := by omega
            rw [hje] at hjid
            exact heq hjid
    · rw [if_neg hlr]
      symm
      apply lookupId_eq_none
      intro p hp hpid
      obtain ⟨j, hj, hje⟩ := List.mem_iff_getElem.mp hp
      have hjd : (idx.getD j (0, 0)).1 = node_id := by
        rw [List.getD_eq_getElem _ _ hj, hje, hpid]
      obtain ⟨h1, h2⟩ := hconf j hj hjd
      omega

/-- `find_block` on a non-empty strictly sorted index is association
lookup. -/
theorem find_block_spec (idx : List (Nat × Nat)) (node_id : Nat)
    (hs : List.Pairwise (fun p q : Nat × Nat => p.1 < q.1) idx)
    (hne : idx ≠ []) : find_block idx node_id = .ok (lookupId idx node_id) := by
  unfold find_block
  rw [if_neg (by simpa [List.isEmpty_iff] using hne)]
  congr 1
  have hlen : 1 ≤ idx.length := by
    cases idx with
    | nil => exact absurd rfl hne
    | cons a l => simp
  apply findBlockLoop_spec idx node_id hs (idx.length + 1) 0
    ((idx.length : Int) - 1) (by omega) (by omega) ?_ (by omega)
  intro j hj _
  omega

/-- C4 (amended).  For every opened reader whose index is non-empty (the
store has at least one block), a query for an id with no index entry
returns an empty sequence without raising; with an empty index
`find_block` raises instead (see the counterexample). -/
theorem C4_miss_returns_empty (r : Reader) (node_id : Nat)
    (hs : List.Pairwise (fun p q : Nat × Nat => p.1 < q.1) r.index)
    (hne : r.index ≠ [])
    (hmiss : ∀ p ∈ r.index, p.1 ≠ node_id) :
    get_neighbors r node_id = .ok [] := by
  unfold get_neighbors
  rw [find_block_spec r.index node_id hs hne, lookupId_eq_none _ _ hmiss]

/-- Witness for `C4_miss_returns_empty`: a reader with the single index
entry `(5, 394)` queried for the absent id 3. -/
theorem C4_miss_returns_empty_witness :
    (∀ p ∈ [((5 : Nat), (394 : Nat))], p.1 ≠ 3) ∧
      get_neighbors ⟨1, 1, 16, [(5, 394)], BiDict.empty, []⟩ 3 = .ok [] :=
  ⟨by decide,
    C4_miss_returns_empty ⟨1, 1, 16, [(5, 394)], BiDict.empty, []⟩ 3
      (List.pairwise_singleton _ _) (by simp) (by decide)⟩

/-! ## File-layout lemmas -/

/-- The body (concatenated blocks) of the produced file. -/
def bodyOf (S : List (Title × List Title)) : List Nat :=
  (writeBlocks (pass1 S).nodes_with_edges 16).1

/-- The index as accumulated during block emission (unsorted). -/
def rawIndexOf (S : List (Title × List Title)) : List (Nat × Nat) :=
  (writeBlocks (pass1 S).nodes_with_edges 16).2

/-- The `index_pos` recorded at the end of the produced file. -/
def indexPosOf (S : List (Title × List Title)) : Nat := 16 + (bodyOf S).length

theorem writtenIndex_eq_sorted (S : List (Title × List Title)) :
    writtenIndex S = sortedIndex (rawIndexOf S) := rfl

theorem indexBytes_length (l : List (Nat × Nat)) :
    (indexBytes l).length = 16 * l.length := by
  induction l with
  | nil => rfl
  | cons p tl ih =>
    obtain ⟨a, b⟩ := p
    simp only [indexBytes, List.length_append, u64le_length, ih,
      List.length_cons]
    ring

theorem writeAt_12 (a b rest w : List Nat) (ha : a.length = 8)
    (hb : b.length = 4) (hw : w.length = 4) :
    writeAt (a ++ (b ++ rest)) 8 w = a ++ (w ++ rest) := by
  unfold writeAt
  have h1 : (a ++ (b ++ rest)).take 8 = a := by
    rw [← ha, List.take_left]
  have h2 : (a ++ (b ++ rest)).drop (8 + w.length) = rest := by
    rw [← List.append_assoc]
    have h12 : (a ++ b).length = 8 + w.length := by
      rw [List.length_append, ha, hb, hw]
    rw [← h12, List.drop_left]
  rw [h1, h2, List.append_assoc]

/-- The produced file, written as plain concatenation: the patch at offset
8 replaced the version field with the final node count, and the placeholder
node count 0 at offset 12 survives. -/
theorem process_jsonl_dump_eq (S : List (Title × List Title)) :
    process_jsonl_dump S =
      MAGIC ++ (u32le (pass1 S).current_node_id ++ (u32le 0 ++ (bodyOf S ++
        (indexBytes (writtenIndex S) ++ u64le (indexPosOf S))))) := by
  unfold process_jsonl_dump write_header
  simp only [List.append_assoc]
  rw [writeAt_12 MAGIC (u32le VERSION) _ (u32le (pass1 S).current_node_id)
    rfl rfl rfl]
  rfl

theorem writeBlocks_map_fst (l : List (Nat × List Nat)) (pos : Nat) :
    (writeBlocks l pos).2.map Prod.fst = l.map Prod.fst := by
  induction l generalizing pos with
  | nil => rfl
  | cons a tl ih =>
    obtain ⟨n, eids⟩ := a
    simp only [writeBlocks, List.map_cons, ih]

/-- Every index entry produced by the block-emission loop points at the
start of its node's block inside the emitted body. -/
theorem writeBlocks_mem (l : List (Nat × List Nat)) :
    ∀ (pos : Nat) (p : Nat × Nat), p ∈ (writeBlocks l pos).2 →
      ∃ edge_ids rest, (p.1, edge_ids) ∈ l ∧ pos ≤ p.2 ∧
        (writeBlocks l pos).1.drop (p.2 - pos) = blockBytes edge_ids ++ rest := by
  induction l with
  | nil => intro pos p hp; simp [writeBlocks] at hp
  | cons a tl ih =>
    intro pos p hp
    obtain ⟨n, eids⟩ := a
    simp only [writeBlocks] at hp ⊢
    rcases List.mem_cons.mp hp with h | h
    · subst h
      refine ⟨eids, (writeBlocks tl (pos + (blockBytes eids).length)).1,
        List.mem_cons_self _ _, le_refl _, ?_⟩
      simp
    · obtain ⟨eids', rest', hmem, hle, hdrop⟩ :=
        ih (pos + (blockBytes eids).length) p h
      refine ⟨eids', rest', List.mem_cons_of_mem _ hmem, by omega, ?_⟩
      have hk : p.2 - pos =
          (blockBytes eids).length + (p.2 - (pos + (blockBytes eids).length)) := by
        omega
      rw [hk, List.drop_append]
      exact hdrop

/-! ## `load_index` recovers the serialized index -/

theorem loadIndexLoop_stop (file : List Nat) (fuel pos : Nat)
    (h : ¬ pos < file.length - 8) : loadIndexLoop file fuel pos = [] := by
  cases fuel with
  | zero => rfl
  | succ fuel => simp only [loadIndexLoop, if_neg h]

theorem loadIndexLoop_fuel (file : List Nat) :
    ∀ f g pos, file.length - pos ≤ f → file.length - pos ≤ g →
      loadIndexLoop file f pos = loadIndexLoop file g pos := by
  intro f
  induction f with
  | zero =>
    intro g pos hf hg
    rw [loadIndexLoop_stop file 0 pos (by omega),
      loadIndexLoop_stop file g pos (by omega)]
  | succ f ih =>
    intro g pos hf hg
    by_cases hc : pos < file.length - 8
    · cases g with
      | zero => omega
      | succ g =>
        simp only [loadIndexLoop, if_pos hc]
        by_cases hc2 : pos + 16 ≤ file.length
        · rw [if_pos hc2, if_pos hc2, ih g (pos + 16) (by omega) (by omega)]
        · rw [if_neg hc2, if_neg hc2]
    · rw [loadIndexLoop_stop file _ pos hc, loadIndexLoop_stop file g pos hc]

/-- Scanning from `pos` over the serialized entries followed by an 8-byte
tail recovers exactly the entries (whose components fit in 64 bits). -/
theorem loadIndexLoop_spec (file tail : List Nat) (_htail : tail.length = 8) :
    ∀ (entries : List (Nat × Nat)) (pos : Nat),
      (∀ p ∈ entries, p.1 < 18446744073709551616 ∧
        p.2 < 18446744073709551616) →
      file.drop pos = indexBytes entries ++ tail →
      pos + (indexBytes entries).length + 8 = file.length →
      ∀ fuel, file.length - pos ≤ fuel →
        loadIndexLoop file fuel pos = entries := by
  intro entries
  induction entries with
  | nil =>
    intro pos _ _ hpos fuel _
    apply loadIndexLoop_stop
    simp only [indexBytes, List.length_nil] at hpos
    omega
  | cons e tl ih =>
    intro pos hb hdrop hpos fuel hfuel
    obtain ⟨a, b⟩ := e
    have hlen : (indexBytes ((a, b) :: tl)).length = 16 + (indexBytes tl).length := by
      simp only [indexBytes, List.length_append, u64le_length]
    have hcond : pos < file.length - 8 := by omega
    have hcond2 : pos + 16 ≤ file.length := by omega
    cases fuel with
    | zero => omega
    | succ fuel =>
      simp only [loadIndexLoop, if_pos hcond, if_pos hcond2]
      have hdropA : file.drop pos =
          u64le a ++ (u64le b ++ (indexBytes tl ++ tail)) := by
        rw [hdrop]
        simp only [indexBytes, List.append_assoc]
      have ha : readU64 file pos = a :=
        readU64_of_drop file _ pos a hdropA (hb (a, b) (List.mem_cons_self _ _)).1
      have hdropB : file.drop (pos + 8) = u64le b ++ (indexBytes tl ++ tail) := by
        have : file.drop (pos + 8) = (file.drop pos).drop 8 := by
          rw [List.drop_drop]
        rw [this, hdropA, ← u64le_length a, List.drop_left]
      have hb2 : readU64 file (pos + 8) = b :=
        readU64_of_drop file _ (pos + 8) b hdropB
          (hb (a, b) (List.mem_cons_self _ _)).2
      have hdropC : file.drop (pos + 16) = indexBytes tl ++ tail := by
        have h16 : (u64le a ++ u64le b).length = 16 := by
          rw [List.length_append, u64le_length, u64le_length]
        have : file.drop (pos + 16) = (file.drop pos).drop 16 := by
          rw [List.drop_drop]
        rw [this, hdropA, ← List.append_assoc, ← h16, List.drop_left]
      rw [ha, hb2, ih (pos + 16) (fun p hp => hb p (List.mem_cons_of_mem _ hp))
        hdropC (by omega) fuel (by omega)]

/-- `load_index` on a file laid out as `pre ++ indexBytes entries ++
u64le q` starting at `pre.length` yields the entries. -/
theorem load_index_spec (pre : List Nat) (entries : List (Nat × Nat)) (q : Nat)
    (hb : ∀ p ∈ entries, p.1 < 18446744073709551616 ∧
      p.2 < 18446744073709551616) :
    load_index (pre ++ (indexBytes entries ++ u64le q)) pre.length = entries := by
  unfold load_index
  apply loadIndexLoop_spec _ (u64le q) (u64le_length q) entries pre.length hb
  · rw [List.drop_left]
  · simp only [List.length_append, u64le_length]
    omega
  · omega

/-! ## First-pass invariants of the writer -/

theorem dictGet?_eq_none_iff {α β : Type} [DecidableEq α]
    (m : List (α × β)) (k : α) :
    dictGet? m k = none ↔ k ∉ m.map Prod.fst := by
  induction m with
  | nil => simp [dictGet?]
  | cons p rest ih =>
    rw [dictGet?_cons]
    by_cases hp : p.1 = k
    · simp [hp]
    · simp [hp, ih, Ne.symm hp]

theorem dictSet_keys_nodup {α β : Type} [DecidableEq α]
    (m : List (α × β)) (k : α) (v : β) (h : (m.map Prod.fst).Nodup) :
    ((dictSet m k v).map Prod.fst).Nodup := by
  cases hc : dictGet? m k with
  | some w => rw [dictSet_map_fst_of_mem m k v w hc]; exact h
  | none =>
    rw [dictSet_of_not_mem m k v hc, List.map_append]
    rw [List.nodup_append]
    refine ⟨h, by simp, ?_⟩
    intro x hx hx2
    simp only [List.map_cons, List.map_nil, List.mem_singleton] at hx2
    rw [hx2] at hx
    exact (dictGet?_eq_none_iff m k).mp hc hx

/-- Invariants of the writer state maintained across the first pass:
assigned ids are below the counter, the title→id map is injective with ids
covering `[0, counter)`, titles are unique, the sidecar mirrors the map in
interning order, and `nodes_with_edges` has unique keys all of which are
assigned ids. -/
structure WriterInv (st : WriterState) : Prop where
  bound : ∀ t i, dictGet? st.node_map t = some i → i < st.current_node_id
  inj : ∀ t u i, dictGet? st.node_map t = some i →
    dictGet? st.node_map u = some i → t = u
  surj : ∀ i, i < st.current_node_id → ∃ t, dictGet? st.node_map t = some i
  keysNodup : (st.node_map.map Prod.fst).Nodup
  lines : st.mapfile = st.node_map.map (fun p => sidecarLine p.2 p.1)
  nweBound : ∀ n, (dictGet? st.nodes_with_edges n).isSome = true →
    n < st.current_node_id
  nweNodup : (st.nodes_with_edges.map Prod.fst).Nodup

theorem writerInv_initial : WriterInv initialWriter :=
  ⟨fun t i h => by simp [initialWriter, dictGet?] at h,
   fun t u i h => by simp [initialWriter, dictGet?] at h,
   fun i h => by simp [initialWriter] at h,
   by simp [initialWriter],
   by simp [initialWriter],
   fun n h => by simp [initialWriter, dictGet?] at h,
   by simp [initialWriter]⟩

theorem internTitle_nwe (st : WriterState) (t : Title) :
    (internTitle st t).nodes_with_edges = st.nodes_with_edges := by
  unfold internTitle
  cases dictGet? st.node_map t <;> rfl

theorem internTitle_ctr_le (st : WriterState) (t : Title) :
    st.current_node_id ≤ (internTitle st t).current_node_id := by
  unfold internTitle
  cases dictGet? st.node_map t with
  | none => simp
  | some i => simp

theorem internTitle_mono (st : WriterState) (t u : Title) (i : Nat)
    (h : dictGet? st.node_map u = some i) :
    dictGet? (internTitle st t).node_map u = some i := by
  unfold internTitle
  cases hc : dictGet? st.node_map t with
  | some j => exact h
  | none =>
    simp only
    rw [dictGet?_dictSet_ne]
    · exact h
    · intro he
      rw [he, hc] at h
      exact Option.noConfusion h

theorem internTitle_isSome (st : WriterState) (t : Title) :
    (dictGet? (internTitle st t).node_map t).isSome = true := by
  unfold internTitle
  cases hc : dictGet? st.node_map t with
  | some j => rw [hc]; rfl
  | none => simp only [dictGet?_dictSet_self]; rfl

theorem internTitle_new_id (st : WriterState) (t u : Title) (i : Nat)
    (hnone : dictGet? st.node_map u = none)
    (hsome : dictGet? (internTitle st t).node_map u = some i) :
    i = st.current_node_id ∧ u = t := by
  unfold internTitle at hsome
  cases hc : dictGet? st.node_map t with
  | some j =>
    rw [hc] at hsome
    rw [hsome] at hnone
    exact Option.noConfusion hnone
  | none =>
    rw [hc] at hsome
    simp only at hsome
    by_cases he : u = t
    · subst he
      rw [dictGet?_dictSet_self] at hsome
      exact ⟨(Option.some_injective _ hsome).symm, rfl⟩
    · rw [dictGet?_dictSet_ne _ _ _ _ he] at hsome
      rw [hsome] at hnone
      exact Option.noConfusion hnone

theorem writerInv_internTitle (st : WriterState) (t : Title)
    (h : WriterInv st) : WriterInv (internTitle st t) := by
  unfold internTitle
  cases hc : dictGet? st.node_map t with
  | some j => exact h
  | none =>
    simp only
    refine ⟨?_, ?_, ?_, ?_, ?_, ?_, ?_⟩
    · intro u i hu
      dsimp only at hu ⊢
      by_cases he : u = t
      · subst he
        rw [dictGet?_dictSet_self] at hu
        have := Option.some_injective _ hu
        omega
      · rw [dictGet?_dictSet_ne _ _ _ _ he] at hu
        have := h.bound u i hu
        omega
    · intro u v i hu hv
      dsimp only at hu hv
      by_cases heu : u = t <;> by_cases hev : v = t
      · rw [heu, hev]
      · subst heu
        rw [dictGet?_dictSet_self] at hu
        rw [dictGet?_dictSet_ne _ _ _ _ hev] at hv
        have := h.bound v i hv
        have := Option.some_injective _ hu
        omega
      · subst hev
        rw [dictGet?_dictSet_self] at hv
        rw [dictGet?_dictSet_ne _ _ _ _ heu] at hu
        have := h.bound u i hu
        have := Option.some_injective _ hv
        omega
      · rw [dictGet?_dictSet_ne _ _ _ _ heu] at hu
        rw [dictGet?_dictSet_ne _ _ _ _ hev] at hv
        exact h.inj u v i hu hv
    · intro i hi
      dsimp only at hi ⊢
      rcases Nat.lt_or_ge i st.current_node_id with hlt | hge
      · obtain ⟨u, hu⟩ := h.surj i hlt
        refine ⟨u, ?_⟩
        rw [dictGet?_dictSet_ne]
        · exact hu
        · intro he
          rw [he, hc] at hu
          exact Option.noConfusion hu
      · have : i = st.current_node_id := by omega
        subst this
        exact ⟨t, dictGet?_dictSet_self _ _ _⟩
    · exact dictSet_keys_nodup _ _ _ h.keysNodup
    · dsimp only
      rw [dictSet_of_not_mem _ _ _ hc, List.map_append, h.lines]
      rfl
    · intro n hn
      dsimp only at hn ⊢
      have := h.nweBound n hn
      omega
    · exact h.nweNodup

/-! ### The destination-interning fold -/

theorem internEdges_cons (st : WriterState) (acc : List Nat) (t : Title) :
    internEdges (st, acc) t =
      (internTitle st t,
        acc ++ [(dictGet? (internTitle st t).node_map t).getD 0]) := rfl

theorem internEdges_fold_nwe (ts : List Title) :
    ∀ (st : WriterState) (acc : List Nat),
      (ts.foldl internEdges (st, acc)).1.nodes_with_edges =
        st.nodes_with_edges := by
  induction ts with
  | nil => intro st acc; rfl
  | cons t ts ih =>
    intro st acc
    rw [List.foldl_cons, internEdges_cons, ih, internTitle_nwe]

theorem internEdges_fold_ctr (ts : List Title) :
    ∀ (st : WriterState) (acc : List Nat),
      st.current_node_id ≤ (ts.foldl internEdges (st, acc)).1.current_node_id := by
  induction ts with
  | nil => intro st acc; exact le_refl _
  | cons t ts ih =>
    intro st acc
    rw [List.foldl_cons, internEdges_cons]
    exact le_trans (internTitle_ctr_le st t) (ih _ _)

theorem internEdges_fold_mono (ts : List Title) :
    ∀ (st : WriterState) (acc : List Nat) (u : Title) (i : Nat),
      dictGet? st.node_map u = some i →
      dictGet? (ts.foldl internEdges (st, acc)).1.node_map u = some i := by
  induction ts with
  | nil => intro st acc u i h; exact h
  | cons t ts ih =>
    intro st acc u i h
    rw [List.foldl_cons, internEdges_cons]
    exact ih _ _ u i (internTitle_mono st t u i h)

theorem internEdges_fold_inv (ts : List Title) :
    ∀ (st : WriterState) (acc : List Nat), WriterInv st →
      WriterInv (ts.foldl internEdges (st, acc)).1 := by
  induction ts with
  | nil => intro st acc h; exact h
  | cons t ts ih =>
    intro st acc h
    rw [List.foldl_cons, internEdges_cons]
    exact ih _ _ (writerInv_internTitle st t h)

theorem internEdges_fold_new_id (ts : List Title) :
    ∀ (st : WriterState) (acc : List Nat) (u : Title) (i : Nat),
      dictGet? st.node_map u = none →
      dictGet? (ts.foldl internEdges (st, acc)).1.node_map u = some i →
      st.current_node_id ≤ i := by
  induction ts with
  | nil =>
    intro st acc u i hnone hsome
    simp only [List.foldl_nil] at hsome
    rw [hnone] at hsome
    exact Option.noConfusion hsome
  | cons t ts ih =>
    intro st acc u i hnone hsome
    rw [List.foldl_cons, internEdges_cons] at hsome
    cases hc : dictGet? (internTitle st t).node_map u with
    | some j =>
      have := internEdges_fold_mono ts (internTitle st t)
        (acc ++ [(dictGet? (internTitle st t).node_map t).getD 0]) u j hc
      rw [this] at hsome
      obtain ⟨hj, _⟩ := internTitle_new_id st t u j hnone hc
      have := Option.some_injective _ hsome
      omega
    | none =>
      have := ih _ _ u i hc hsome
      have := internTitle_ctr_le st t
      omega

theorem internEdges_fold_mem (ts : List Title) :
    ∀ (st : WriterState) (acc : List Nat) (t : Title), t ∈ ts →
      (dictGet? (ts.foldl internEdges (st, acc)).1.node_map t).isSome = true := by
  induction ts with
  | nil => intro st acc t ht; simp at ht
  | cons u ts ih =>
    intro st acc t ht
    rw [List.foldl_cons, internEdges_cons]
    rcases List.mem_cons.mp ht with h | h
    · subst h
      obtain ⟨i, hi⟩ := Option.isSome_iff_exists.mp (internTitle_isSome st t)
      rw [internEdges_fold_mono ts _ _ t i hi]
      rfl
    · exact ih _ _ t h

/-- The collected `edge_ids` are the ids of the destination titles as read
from the post-fold state (id assignments never change once made). -/
theorem internEdges_fold_ids (ts : List Title) :
    ∀ (st : WriterState) (acc : List Nat),
      (ts.foldl internEdges (st, acc)).2 =
        acc ++ ts.map (fun t =>
          (dictGet? (ts.foldl internEdges (st, acc)).1.node_map t).getD 0) := by
  induction ts with
  | nil => intro st acc; simp
  | cons t ts ih =>
    intro st acc
    rw [List.foldl_cons, internEdges_cons, List.map_cons]
    obtain ⟨i, hi⟩ := Option.isSome_iff_exists.mp (internTitle_isSome st t)
    have hfin := internEdges_fold_mono ts (internTitle st t)
      (acc ++ [(dictGet? (internTitle st t).node_map t).getD 0]) t i hi
    rw [ih, List.append_assoc, hfin, hi]
    rfl

/-! ### Record processing and the whole first pass -/

theorem processRecord_eq (st : WriterState) (r : Title × List Title) :
    processRecord st r =
      (if (r.2.foldl internEdges (internTitle st r.1, [])).2.isEmpty then
        (r.2.foldl internEdges (internTitle st r.1, [])).1
      else
        { (r.2.foldl internEdges (internTitle st r.1, [])).1 with
            nodes_with_edges :=
              dictSet (r.2.foldl internEdges (internTitle st r.1, [])).1.nodes_with_edges
                ((dictGet? (internTitle st r.1).node_map r.1).getD 0)
                (r.2.foldl internEdges (internTitle st r.1, [])).2 }) := rfl

theorem processRecord_node_map (st : WriterState) (r : Title × List Title) :
    (processRecord st r).node_map =
      (r.2.foldl internEdges (internTitle st r.1, [])).1.node_map := by
  rw [processRecord_eq]
  by_cases h : (r.2.foldl internEdges (internTitle st r.1, [])).2.isEmpty
  · rw [if_pos h]
  · rw [if_neg h]

theorem processRecord_ctr_eq (st : WriterState) (r : Title × List Title) :
    (processRecord st r).current_node_id =
      (r.2.foldl internEdges (internTitle st r.1, [])).1.current_node_id := by
  rw [processRecord_eq]
  by_cases h : (r.2.foldl internEdges (internTitle st r.1, [])).2.isEmpty
  · rw [if_pos h]
  · rw [if_neg h]

theorem processRecord_mapfile (st : WriterState) (r : Title × List Title) :
    (processRecord st r).mapfile =
      (r.2.foldl internEdges (internTitle st r.1, [])).1.mapfile := by
  rw [processRecord_eq]
  by_cases h : (r.2.foldl internEdges (internTitle st r.1, [])).2.isEmpty
  · rw [if_pos h]
  · rw [if_neg h]

theorem processRecord_nwe (st : WriterState) (r : Title × List Title) :
    (processRecord st r).nodes_with_edges =
      if (r.2.foldl internEdges (internTitle st r.1, [])).2.isEmpty then
        st.nodes_with_edges
      else
        dictSet st.nodes_with_edges
          ((dictGet? (internTitle st r.1).node_map r.1).getD 0)
          (r.2.foldl internEdges (internTitle st r.1, [])).2 := by
  rw [processRecord_eq]
  by_cases h : (r.2.foldl internEdges (internTitle st r.1, [])).2.isEmpty
  · rw [if_pos h, if_pos h, internEdges_fold_nwe, internTitle_nwe]
  · rw [if_neg h, if_neg h]
    show dictSet (r.2.foldl internEdges (internTitle st r.1, [])).1.nodes_with_edges _ _ = _
    rw [internEdges_fold_nwe, internTitle_nwe]

theorem processRecord_mono (st : WriterState) (r : Title × List Title)
    (u : Title) (i : Nat) (h : dictGet? st.node_map u = some i) :
    dictGet? (processRecord st r).node_map u = some i := by
  rw [processRecord_node_map]
  exact internEdges_fold_mono r.2 _ [] u i (internTitle_mono st r.1 u i h)

theorem processRecord_ctr_le (st : WriterState) (r : Title × List Title) :
    st.current_node_id ≤ (processRecord st r).current_node_id := by
  rw [processRecord_ctr_eq]
  exact le_trans (internTitle_ctr_le st r.1) (internEdges_fold_ctr r.2 _ [])

theorem processRecord_new_id (st : WriterState) (r : Title × List Title)
    (u : Title) (i : Nat) (hnone : dictGet? st.node_map u = none)
    (hsome : dictGet? (processRecord st r).node_map u = some i) :
    st.current_node_id ≤ i := by
  rw [processRecord_node_map] at hsome
  cases hc : dictGet? (internTitle st r.1).node_map u with
  | some j =>
    have := internEdges_fold_mono r.2 (internTitle st r.1) [] u j hc
    rw [this] at hsome
    obtain ⟨hj, _⟩ := internTitle_new_id st r.1 u j hnone hc
    have := Option.some_injective _ hsome
    omega
  | none =>
    have h1 := internEdges_fold_new_id r.2 (internTitle st r.1) [] u i hc hsome
    have h2 := internTitle_ctr_le st r.1
    omega

theorem processRecord_src_isSome (st : WriterState) (r : Title × List Title) :
    (dictGet? (processRecord st r).node_map r.1).isSome = true := by
  rw [processRecord_node_map]
  obtain ⟨i, hi⟩ := Option.isSome_iff_exists.mp (internTitle_isSome st r.1)
  rw [internEdges_fold_mono r.2 _ [] r.1 i hi]
  rfl

theorem processRecord_dst_isSome (st : WriterState) (r : Title × List Title)
    (t : Title) (ht : t ∈ r.2) :
    (dictGet? (processRecord st r).node_map t).isSome = true := by
  rw [processRecord_node_map]
  exact internEdges_fold_mem r.2 _ [] t ht

theorem writerInv_processRecord (st : WriterState) (r : Title × List Title)
    (h : WriterInv st) : WriterInv (processRecord st r) := by
  have hif : WriterInv (r.2.foldl internEdges (internTitle st r.1, [])).1 :=
    internEdges_fold_inv r.2 _ [] (writerInv_internTitle st r.1 h)
  rw [processRecord_eq]
  by_cases hemp : (r.2.foldl internEdges (internTitle st r.1, [])).2.isEmpty
  · rw [if_pos hemp]; exact hif
  · rw [if_neg hemp]
    obtain ⟨i0, hi0⟩ := Option.isSome_iff_exists.mp (internTitle_isSome st r.1)
    have hfin := internEdges_fold_mono r.2 _ [] r.1 i0 hi0
    refine ⟨hif.bound, hif.inj, hif.surj, hif.keysNodup, hif.lines, ?_, ?_⟩
    · intro n hn
      dsimp only at hn ⊢
      by_cases hne : n = (dictGet? (internTitle st r.1).node_map r.1).getD 0
      · subst hne
        rw [hi0]
        exact hif.bound r.1 i0 hfin
      · rw [dictGet?_dictSet_ne _ _ _ _ hne] at hn
        exact hif.nweBound n hn
    · exact dictSet_keys_nodup _ _ _ hif.nweNodup

theorem pass1_append (S : List (Title × List Title)) (r : Title × List Title) :
    pass1 (S ++ [r]) = processRecord (pass1 S) r := by
  unfold pass1
  rw [List.foldl_append]
  rfl

theorem pass1_inv (S : List (Title × List Title)) : WriterInv (pass1 S) := by
  induction S using List.reverseRecOn with
  | nil => exact writerInv_initial
  | append_singleton S r ih =>
    rw [pass1_append]
    exact writerInv_processRecord _ _ ih

theorem lastStoredDsts_append (S : List (Title × List Title))
    (r : Title × List Title) (src : Title) :
    lastStoredDsts (S ++ [r]) src =
      if r.1 = src ∧ r.2 ≠ [] then some r.2 else lastStoredDsts S src := by
  unfold lastStoredDsts
  rw [List.foldl_append]
  rfl

/-- The titles of a record the writer stored for `src` are all interned. -/
theorem lastStored_interned (S : List (Title × List Title)) :
    ∀ (src : Title) (ds : List Title), lastStoredDsts S src = some ds →
      (dictGet? (pass1 S).node_map src).isSome = true ∧
        ∀ t ∈ ds, (dictGet? (pass1 S).node_map t).isSome = true := by
  induction S using List.reverseRecOn with
  | nil =>
    intro src ds h
    simp [lastStoredDsts] at h
  | append_singleton S r ih =>
    intro src ds h
    rw [lastStoredDsts_append] at h
    rw [pass1_append]
    by_cases hc : r.1 = src ∧ r.2 ≠ []
    · rw [if_pos hc] at h
      have hds : r.2 = ds := Option.some_injective _ h
      constructor
      · rw [← hc.1]
        exact processRecord_src_isSome _ r
      · intro t ht
        rw [← hds] at ht
        exact processRecord_dst_isSome _ r t ht
    · rw [if_neg hc] at h
      obtain ⟨h1, h2⟩ := ih src ds h
      constructor
      · obtain ⟨i, hi⟩ := Option.isSome_iff_exists.mp h1
        rw [processRecord_mono _ r src i hi]
        rfl
      · intro t ht
        obtain ⟨i, hi⟩ := Option.isSome_iff_exists.mp (h2 t ht)
        rw [processRecord_mono _ r t i hi]
        rfl

/-- What `nodes_with_edges` holds for an interned source after the first
pass: exactly the ids of the last non-empty destination list recorded for
it (later records overwrite, empty ones are skipped). -/
theorem pass1_nwe_spec (S : List (Title × List Title)) :
    ∀ (src : Title) (sid : Nat),
      dictGet? (pass1 S).node_map src = some sid →
      dictGet? (pass1 S).nodes_with_edges sid =
        (lastStoredDsts S src).map
          (fun ds => ds.map
            (fun t => (dictGet? (pass1 S).node_map t).getD 0)) := by
  induction S using List.reverseRecOn with
  | nil =>
    intro src sid h
    simp [pass1, initialWriter, dictGet?] at h
  | append_singleton S r ih =>
    intro src sid h
    rw [pass1_append] at h ⊢
    rw [lastStoredDsts_append]
    have hids := internEdges_fold_ids r.2 (internTitle (pass1 S) r.1) []
    rw [List.nil_append] at hids
    have common : dictGet? (pass1 S).nodes_with_edges sid =
        (lastStoredDsts S src).map (fun ds => ds.map
          (fun t =>
            (dictGet? (processRecord (pass1 S) r).node_map t).getD 0)) := by
      cases hsrc : dictGet? (pass1 S).node_map src with
      | some sid0 =>
        have hsid : sid0 = sid := by
          have hm := processRecord_mono (pass1 S) r src sid0 hsrc
          rw [h] at hm
          exact (Option.some_injective _ hm).symm
        rw [← hsid]
        rw [ih src sid0 hsrc]
        cases hl : lastStoredDsts S src with
        | none => rfl
        | some ds =>
          simp only [Option.map_some']
          congr 1
          apply List.map_congr_left
          intro t ht
          obtain ⟨i, hi⟩ := Option.isSome_iff_exists.mp
            ((lastStored_interned S src ds hl).2 t ht)
          rw [hi, processRecord_mono (pass1 S) r t i hi]
      | none =>
        have hlast : lastStoredDsts S src = none := by
          cases hl : lastStoredDsts S src with
          | none => rfl
          | some ds =>
            have hsm := (lastStored_interned S src ds hl).1
            rw [hsrc] at hsm
            exact absurd hsm (by simp)
        rw [hlast]
        have hge := processRecord_new_id (pass1 S) r src sid hsrc h
        cases hng : dictGet? (pass1 S).nodes_with_edges sid with
        | none => rfl
        | some e =>
          have hlt : sid < (pass1 S).current_node_id :=
            (pass1_inv S).nweBound sid (by rw [hng]; rfl)
          omega
    rw [processRecord_nwe]
    by_cases hB : r.2 = []
    · have hempty : (r.2.foldl internEdges
          (internTitle (pass1 S) r.1, [])).2.isEmpty = true := by
        rw [hB]
        rfl
      rw [if_pos hempty, if_neg (by simp [hB])]
      exact common
    · have hnotempty : ¬ (r.2.foldl internEdges
          (internTitle (pass1 S) r.1, [])).2.isEmpty = true := by
        rw [hids]
        simp [hB]
      rw [if_neg hnotempty]
      obtain ⟨i0, hi0⟩ :=
        Option.isSome_iff_exists.mp (internTitle_isSome (pass1 S) r.1)
      have hnid_eq :
          (dictGet? (internTitle (pass1 S) r.1).node_map r.1).getD 0 = i0 := by
        rw [hi0]
        rfl
      have hpr1 :
          dictGet? (processRecord (pass1 S) r).node_map r.1 = some i0 := by
        rw [processRecord_node_map]
        exact internEdges_fold_mono r.2 _ [] r.1 i0 hi0
      by_cases hsA : r.1 = src
      · have hsid : i0 = sid := by
          rw [hsA] at hpr1
          rw [h] at hpr1
          exact (Option.some_injective _ hpr1).symm
        rw [if_pos ⟨hsA, hB⟩, hnid_eq, hsid, dictGet?_dictSet_self]
        rw [hids]
        simp only [Option.map_some']
        congr 1
        apply List.map_congr_left
        intro t _
        rw [processRecord_node_map]
      · have hne : sid ≠ (dictGet? (internTitle (pass1 S) r.1).node_map
            r.1).getD 0 := by
          rw [hnid_eq]
          intro he
          exact hsA ((writerInv_processRecord _ r (pass1_inv S)).inj r.1 src i0
            hpr1 (by rw [he] at h; exact h))
        rw [if_neg (fun hcon => hsA hcon.1), dictGet?_dictSet_ne _ _ _ _ hne]
        exact common

/-! ## The sorted index of a produced store -/

theorem sortedIndex_sorted (l : List (Nat × Nat)) :
    List.Sorted indexLe (sortedIndex l) := List.sorted_insertionSort _ l

theorem sortedIndex_perm (l : List (Nat × Nat)) : (sortedIndex l).Perm l :=
  List.perm_insertionSort _ l

theorem sortedIndex_pairwise_lt (l : List (Nat × Nat))
    (hnd : (l.map Prod.fst).Nodup) :
    List.Pairwise (fun p q : Nat × Nat => p.1 < q.1) (sortedIndex l) := by
  have hs : List.Pairwise indexLe (sortedIndex l) := sortedIndex_sorted l
  have hnd2 : ((sortedIndex l).map Prod.fst).Nodup :=
    (((sortedIndex_perm l).map Prod.fst).nodup_iff).mpr hnd
  have hne : List.Pairwise (fun p q : Nat × Nat => p.1 ≠ q.1) (sortedIndex l) := by
    rw [List.Nodup, List.pairwise_map] at hnd2
    exact hnd2
  refine (hs.and hne).imp ?_
  intro p q hpq
  rcases hpq.1 with h | h
  · exact h
  · exact absurd h.1 hpq.2

theorem rawIndex_map_fst (S : List (Title × List Title)) :
    (rawIndexOf S).map Prod.fst =
      (pass1 S).nodes_with_edges.map Prod.fst :=
  writeBlocks_map_fst _ 16

theorem writtenIndex_pairwise (S : List (Title × List Title)) :
    List.Pairwise (fun p q : Nat × Nat => p.1 < q.1) (writtenIndex S) := by
  rw [writtenIndex_eq_sorted]
  apply sortedIndex_pairwise_lt
  rw [rawIndex_map_fst]
  exact (pass1_inv S).nweNodup

/-- Every entry of the written index locates its node's block: the file
bytes from the entry's offset start with the `u32_le` length prefix of the
node's compressed encoded edge list. -/
theorem file_block_at (S : List (Title × List Title)) (p : Nat × Nat)
    (hp : p ∈ writtenIndex S) :
    ∃ edge_ids rest,
      dictGet? (pass1 S).nodes_with_edges p.1 = some edge_ids ∧
        (process_jsonl_dump S).drop p.2 =
          u32le (zlibCompress (encode_edges edge_ids)).length ++
            (zlibCompress (encode_edges edge_ids) ++ rest) := by
  have hp2 : p ∈ rawIndexOf S := by
    rw [writtenIndex_eq_sorted] at hp
    exact (sortedIndex_perm _).mem_iff.mp hp
  obtain ⟨eids, rest, hmem, hle, hdrop⟩ := writeBlocks_mem _ 16 p hp2
  have hget : dictGet? (pass1 S).nodes_with_edges p.1 = some eids :=
    dictGet?_eq_some_of_mem_nodup _ _ _ (pass1_inv S).nweNodup hmem
  refine ⟨eids,
    rest ++ (indexBytes (writtenIndex S) ++ u64le (indexPosOf S)), hget, ?_⟩
  have hregroup : process_jsonl_dump S =
      (MAGIC ++ u32le (pass1 S).current_node_id ++ u32le 0) ++
        (bodyOf S ++ (indexBytes (writtenIndex S) ++ u64le (indexPosOf S))) := by
    rw [process_jsonl_dump_eq]
    simp [List.append_assoc]
  have hhead : (MAGIC ++ u32le (pass1 S).current_node_id ++ u32le 0).length
      = 16 := by
    simp [MAGIC, u32le]
  have hdropB : (bodyOf S).drop (p.2 - 16) = blockBytes eids ++ rest := hdrop
  have hinbody : p.2 - 16 < (bodyOf S).length := by
    have hlens := congrArg List.length hdropB
    rw [List.length_drop, List.length_append] at hlens
    have hbb : 4 ≤ (blockBytes eids).length := by
      unfold blockBytes
      rw [List.length_append, u32le_length]
      omega
    omega
  rw [hregroup]
  have hsplit : p.2 = (MAGIC ++ u32le (pass1 S).current_node_id ++
      u32le 0).length + (p.2 - 16) := by omega
  rw [hsplit, List.drop_append,
    List.drop_append_of_le_length (by omega :
      p.2 - 16 ≤ (bodyOf S).length)]
  rw [hdropB]
  unfold blockBytes
  simp [List.append_assoc]

/-- C9.  Index invariant of every produced file: the index entries written
at finalization are strictly ascending by node id, and each entry's offset
is the absolute position of the first byte of that node's `u32_le`
block-length prefix (the block being the compressed encoded edge list the
writer stored for that node). -/
theorem C9_index_invariant (S : List (Title × List Title)) :
    List.Pairwise (fun p q : Nat × Nat => p.1 < q.1) (writtenIndex S) ∧
      ∀ p ∈ writtenIndex S, ∃ edge_ids rest,
        dictGet? (pass1 S).nodes_with_edges p.1 = some edge_ids ∧
          (process_jsonl_dump S).drop p.2 =
            u32le (zlibCompress (encode_edges edge_ids)).length ++
              (zlibCompress (encode_edges edge_ids) ++ rest) :=
  ⟨writtenIndex_pairwise S, fun p hp => file_block_at S p hp⟩

/-- Witness for `C9_index_invariant` on the input `[("A", ["B"])]`, whose
written index is `[(0, 16)]`. -/
theorem C9_index_invariant_witness :
    (0, 16) ∈ writtenIndex [(['A'], [['B']])] ∧
      (∃ edge_ids rest,
        dictGet? (pass1 [(['A'], [['B']])]).nodes_with_edges 0 =
            some edge_ids ∧
          (process_jsonl_dump [(['A'], [['B']])]).drop 16 =
            u32le (zlibCompress (encode_edges edge_ids)).length ++
              (zlibCompress (encode_edges edge_ids) ++ rest)) :=
  ⟨by decide, (C9_index_invariant [(['A'], [['B']])]).2 (0, 16) (by decide)⟩

/-- The duplicated-source example: `A` occurs in two records with
non-empty destination lists. -/
def dupInput : List (Title × List Title) := [(['A'], [['B']]), (['A'], [['C']])]

/-- C10.  When the same source title occurs in more than one input record
with a non-empty destination list, the writer stores only the edge list of
the last such record for that source id (`nodes_with_edges[node_id] =
edge_ids` overwrites), and the produced store has exactly one index entry
for that id. -/
theorem C10_last_nonempty_record_wins (S : List (Title × List Title))
    (src : Title) (sid : Nat) (dsts : List Title)
    (hsrc : idOf S src = some sid)
    (hlast : lastStoredDsts S src = some dsts) :
    dictGet? (pass1 S).nodes_with_edges sid = some (dsts.map (idOfD S)) ∧
      (writtenIndex S).countP (fun p => p.1 == sid) = 1 := by
  have hstore : dictGet? (pass1 S).nodes_with_edges sid =
      some (dsts.map (idOfD S)) := by
    have h := pass1_nwe_spec S src sid hsrc
    rw [hlast] at h
    exact h
  refine ⟨hstore, ?_⟩
  have hmem_nwe : (sid, dsts.map (idOfD S)) ∈ (pass1 S).nodes_with_edges :=
    mem_of_dictGet?_eq_some _ _ _ hstore
  have hsid_mem : sid ∈ (writtenIndex S).map Prod.fst := by
    rw [writtenIndex_eq_sorted]
    refine ((sortedIndex_perm _).map Prod.fst).mem_iff.mpr ?_
    rw [rawIndex_map_fst]
    exact List.mem_map.mpr ⟨(sid, dsts.map (idOfD S)), hmem_nwe, rfl⟩
  have hnd : ((writtenIndex S).map Prod.fst).Nodup :=
    nodup_fst_of_pairwise_lt _ (writtenIndex_pairwise S)
  have h1 : (fun p : Nat × Nat => p.1 == sid) =
      ((fun x => x == sid) ∘ Prod.fst) := rfl
  rw [h1, ← List.countP_map, ← List.count_eq_countP]
  exact List.count_eq_one_of_mem hnd hsid_mem

/-- Witness for `C10_last_nonempty_record_wins` on `dupInput`: id 0 for
`A`, whose stored list comes from the second record (`["C"]`, id 2). -/
theorem C10_last_nonempty_record_wins_witness :
    (idOf dupInput ['A'] = some 0 ∧
      lastStoredDsts dupInput ['A'] = some [['C']]) ∧
      dictGet? (pass1 dupInput).nodes_with_edges 0 =
          some ([['C']].map (idOfD dupInput)) ∧
        (writtenIndex dupInput).countP (fun p => p.1 == 0) = 1 :=
  ⟨⟨by decide, by decide⟩,
    C10_last_nonempty_record_wins dupInput ['A'] 0 [['C']]
      (by decide) (by decide)⟩

/-! ## Opening a produced store -/

theorem writerBounds_spec (S : List (Title × List Title))
    (hb : writerBoundsOk S = true) :
    (pass1 S).current_node_id ≤ 18446744073709551616 ∧
      16 + (bodyOf S).length < 18446744073709551616 ∧
      ∀ p ∈ (pass1 S).nodes_with_edges,
        (zlibCompress (encode_edges p.2)).length < 4294967296 := by
  unfold writerBoundsOk at hb
  simp only [Bool.and_eq_true, decide_eq_true_eq, List.all_eq_true] at hb
  exact ⟨hb.1.1, hb.1.2, fun p hp => hb.2 p hp⟩

theorem writtenIndex_bounds (S : List (Title × List Title))
    (hb : writerBoundsOk S = true) :
    ∀ p ∈ writtenIndex S,
      p.1 < 18446744073709551616 ∧ p.2 < 18446744073709551616 := by
  obtain ⟨hctr, hix, _⟩ := writerBounds_spec S hb
  intro p hp
  have hp2 : p ∈ rawIndexOf S := by
    rw [writtenIndex_eq_sorted] at hp
    exact (sortedIndex_perm _).mem_iff.mp hp
  obtain ⟨eids, rest, hmem, hle, hdrop⟩ := writeBlocks_mem _ 16 p hp2
  have hget : dictGet? (pass1 S).nodes_with_edges p.1 = some eids :=
    dictGet?_eq_some_of_mem_nodup _ _ _ (pass1_inv S).nweNodup hmem
  have hlt : p.1 < (pass1 S).current_node_id :=
    (pass1_inv S).nweBound p.1 (by rw [hget]; rfl)
  have hdropB : (bodyOf S).drop (p.2 - 16) = blockBytes eids ++ rest := hdrop
  have hinbody : p.2 - 16 < (bodyOf S).length := by
    have hlens := congrArg List.length hdropB
    rw [List.length_drop, List.length_append] at hlens
    have hbb : 4 ≤ (blockBytes eids).length := by
      unfold blockBytes
      rw [List.length_append, u32le_length]
      omega
    omega
  exact ⟨by omega, by omega⟩

/-- Opening a store the writer produced succeeds, and the loaded index is
exactly the sorted index the writer wrote. -/
theorem readerInit_of_produced (S : List (Title × List Title))
    (map_lines : List (List Char)) (hb : writerBoundsOk S = true) :
    readerInit (process_jsonl_dump S) map_lines =
      some { version := readU32 (process_jsonl_dump S) 8,
             node_count := readU32 (process_jsonl_dump S) 12,
             index_pos := indexPosOf S,
             index := writtenIndex S,
             title_map := load_title_map map_lines,
             file := process_jsonl_dump S } := by
  obtain ⟨hctr, hix, _⟩ := writerBounds_spec S hb
  have h8 : MAGIC.length = 8 := rfl
  have hq := process_jsonl_dump_eq S
  have hpre_len : (MAGIC ++ (u32le (pass1 S).current_node_id ++
      (u32le 0 ++ bodyOf S))).length = indexPosOf S := by
    simp only [List.length_append, u32le_length, h8, indexPosOf]
    omega
  have hregroup : process_jsonl_dump S =
      (MAGIC ++ (u32le (pass1 S).current_node_id ++ (u32le 0 ++ bodyOf S))) ++
        (indexBytes (writtenIndex S) ++ u64le (indexPosOf S)) := by
    rw [hq]
    simp [List.append_assoc]
  have hlen : (process_jsonl_dump S).length =
      indexPosOf S + (16 * (writtenIndex S).length + 8) := by
    rw [hregroup]
    simp only [List.length_append, indexBytes_length, u64le_length, hpre_len]
  have htake : (process_jsonl_dump S).take 8 = MAGIC := by
    rw [hq, ← h8, List.take_left]
  have h16 : 16 ≤ (process_jsonl_dump S).length := by
    rw [hlen]
    unfold indexPosOf
    omega
  have hdrop_tail : (process_jsonl_dump S).drop
      ((process_jsonl_dump S).length - 8) = u64le (indexPosOf S) := by
    conv => lhs; rw [hregroup, ← List.append_assoc]
    apply List.drop_left'
    simp only [List.length_append, indexBytes_length, u64le_length, h8,
      u32le_length]
    omega
  have hreadpos : readU64 (process_jsonl_dump S)
      ((process_jsonl_dump S).length - 8) = indexPosOf S := by
    apply readU64_of_drop _ [] _ _ _ (by unfold indexPosOf; omega)
    rw [List.append_nil]
    exact hdrop_tail
  have hload : load_index (process_jsonl_dump S) (indexPosOf S) =
      writtenIndex S := by
    have hspec := load_index_spec
      (MAGIC ++ (u32le (pass1 S).current_node_id ++ (u32le 0 ++ bodyOf S)))
      (writtenIndex S) (indexPosOf S) (writtenIndex_bounds S hb)
    rw [hpre_len] at hspec
    rw [hregroup]
    exact hspec
  unfold readerInit
  rw [if_pos htake, if_pos h16]
  simp only [hreadpos, hload]

/-- C1 (amended).  End-to-end round-trip: after the writer ingests `S` and
finalizes, for every source `src` — whose stored destination list is that
of the **last** record for `src` with a non-empty destination list (records
for a repeated source overwrite; they are not merged, see the
counterexample) — the reader's `neighbors(id_of(src))` equals the sorted,
non-deduplicated list of the destination ids. -/
theorem C1_roundTrip_last_stored (S : List (Title × List Title))
    (src : Title) (sid : Nat) (dsts : List Title)
    (hb : writerBoundsOk S = true) (hsrc : idOf S src = some sid)
    (hlast : lastStoredDsts S src = some dsts) :
    ∃ r, readerInit (process_jsonl_dump S) (pass1 S).mapfile = some r ∧
      get_neighbors r sid = .ok (pySorted (dsts.map (idOfD S))) := by
  obtain ⟨hctr, hix, hcomp⟩ := writerBounds_spec S hb
  refine ⟨_, readerInit_of_produced S (pass1 S).mapfile hb, ?_⟩
  set eids := dsts.map (idOfD S) with heids
  have hstore : dictGet? (pass1 S).nodes_with_edges sid = some eids := by
    have h := pass1_nwe_spec S src sid hsrc
    rw [hlast] at h
    exact h
  have hmem : (sid, eids) ∈ (pass1 S).nodes_with_edges :=
    mem_of_dictGet?_eq_some _ _ _ hstore
  have hsid_mem : sid ∈ (rawIndexOf S).map Prod.fst := by
    rw [rawIndex_map_fst]
    exact List.mem_map.mpr ⟨(sid, eids), hmem, rfl⟩
  obtain ⟨p, hpmem, hpfst⟩ := List.mem_map.mp hsid_mem
  have hpw : p ∈ writtenIndex S := by
    rw [writtenIndex_eq_sorted]
    exact (sortedIndex_perm _).mem_iff.mpr hpmem
  obtain ⟨eids', rest, hget', hdropfile⟩ := file_block_at S p hpw
  have heq : eids' = eids := by
    rw [hpfst, hstore] at hget'
    exact (Option.some_injective _ hget').symm
  subst heq
  have hfind : find_block (writtenIndex S) sid = .ok (some p.2) := by
    rw [find_block_spec _ _ (writtenIndex_pairwise S) (List.ne_nil_of_mem hpw)]
    congr 1
    apply lookupId_eq_some _ _ _
      (nodup_fst_of_pairwise_lt _ (writtenIndex_pairwise S))
    rw [← hpfst]
    exact hpw
  have hclen : readU32 (process_jsonl_dump S) p.2 =
      (zlibCompress (encode_edges eids)).length :=
    readU32_of_drop _ _ _ _ hdropfile (hcomp (sid, eids) hmem)
  have hslice : ((process_jsonl_dump S).drop (p.2 + 4)).take
      (zlibCompress (encode_edges eids)).length =
        zlibCompress (encode_edges eids) := by
    have hdd : (process_jsonl_dump S).drop (p.2 + 4) =
        ((process_jsonl_dump S).drop p.2).drop 4 := by
      rw [List.drop_drop]
    rw [hdd, hdropfile, ← u32le_length
      (zlibCompress (encode_edges eids)).length, List.drop_left]
    exact List.take_left _ _
  have hdec : decodeBlockPayload (encode_edges eids) = some (pySorted eids) := by
    have h := decodeBlockPayload_encode eids []
    rwa [List.append_nil] at h
  simp only [get_neighbors, hfind, hclen, hslice, zlib_roundTrip, hdec]

/-- Witness for `C1_roundTrip_last_stored` on `[("A", ["C", "B"])]`:
`neighbors(0) = [1, 2]`, the sorted ids of `C` and `B`. -/
theorem C1_roundTrip_last_stored_witness :
    (writerBoundsOk [(['A'], [['C'], ['B']])] = true ∧
      idOf [(['A'], [['C'], ['B']])] ['A'] = some 0 ∧
      lastStoredDsts [(['A'], [['C'], ['B']])] ['A'] = some [['C'], ['B']]) ∧
      ∃ r, readerInit (process_jsonl_dump [(['A'], [['C'], ['B']])])
          (pass1 [(['A'], [['C'], ['B']])]).mapfile = some r ∧
        get_neighbors r 0 =
          .ok (pySorted ([['C'], ['B']].map (idOfD [(['A'], [['C'], ['B']])]))) :=
  ⟨⟨by decide, by decide, by decide⟩,
    C1_roundTrip_last_stored [(['A'], [['C'], ['B']])] ['A'] 0 [['C'], ['B']]
      (by decide) (by decide) (by decide)⟩

/-- C1 (counterexample).  Under the merging reading of "collapsed per
source" the claim fails: for `S = [("A", ["B"]), ("A", ["C"])]` the merged
destination list of `A` is `["B", "C"]` with sorted (and deduplicated)
id list `[1, 2]`, but the reader returns `[2]` — only the last record's
edge list was stored. -/
theorem C1_counterexample :
    specCollapsedDsts dupInput ['A'] = [['B'], ['C']] ∧
      idOf dupInput ['A'] = some 0 ∧
      pySorted ((specCollapsedDsts dupInput ['A']).map (idOfD dupInput)) =
        [1, 2] ∧
      pySorted (List.dedup
        ((specCollapsedDsts dupInput ['A']).map (idOfD dupInput))) = [1, 2] ∧
      (readerInit (process_jsonl_dump dupInput) (pass1 dupInput).mapfile).map
        (fun r => get_neighbors r 0) = some (.ok [2]) ∧
      ([2] : List Nat) ≠ [1, 2] := by decide

/-! ## The sidecar round-trip: digits, strip, split -/

theorem decDigits_shape (n : Nat) :
    ∀ c ∈ decDigits n, ∃ d, d < 10 ∧ c = Char.ofNat (48 + d) := by
  induction n using Nat.strong_induction_on with
  | _ n ih =>
    intro c hc
    rw [decDigits_eq] at hc
    by_cases h : n < 10
    · rw [if_pos h] at hc
      simp only [List.mem_singleton] at hc
      exact ⟨n, h, hc⟩
    · rw [if_neg h] at hc
      rcases List.mem_append.mp hc with h2 | h2
      · exact ih (n / 10) (Nat.div_lt_self (by omega) (by omega)) c h2
      · simp only [List.mem_singleton] at h2
        exact ⟨n % 10, by omega, h2⟩

theorem decDigits_ne_nil (n : Nat) : decDigits n ≠ [] := by
  rw [decDigits_eq]
  by_cases h : n < 10
  · rw [if_pos h]; simp
  · rw [if_neg h]; simp

theorem digitChar_facts (d : Nat) (hd : d < 10) :
    (Char.ofNat (48 + d)).isDigit = true ∧
      pyWhitespace (Char.ofNat (48 + d)) = false ∧
      (Char.ofNat (48 + d)) ≠ '\t' ∧
      (Char.ofNat (48 + d)).toNat = 48 + d := by
  interval_cases d <;> exact ⟨by decide, by decide, by decide, by decide⟩

theorem decDigits_foldl (n : Nat) :
    (decDigits n).foldl (fun acc c => acc * 10 + (c.toNat - 48)) 0 = n := by
  induction n using Nat.strong_induction_on with
  | _ n ih =>
    rw [decDigits_eq]
    by_cases h : n < 10
    · rw [if_pos h]
      simp only [List.foldl_cons, List.foldl_nil]
      rw [(digitChar_facts n h).2.2.2]
      omega
    · rw [if_neg h, List.foldl_append,
        ih (n / 10) (Nat.div_lt_self (by omega) (by omega))]
      simp only [List.foldl_cons, List.foldl_nil]
      rw [(digitChar_facts (n % 10) (by omega)).2.2.2]
      omega

theorem pyInt?_decDigits (n : Nat) : pyInt? (decDigits n) = some n := by
  have hall : (decDigits n).all Char.isDigit = true := by
    rw [List.all_eq_true]
    intro c hc
    obtain ⟨d, hd, hcd⟩ := decDigits_shape n c hc
    rw [hcd]
    exact (digitChar_facts d hd).1
  have hne : (decDigits n).isEmpty = false := by
    cases hh : decDigits n with
    | nil => exact absurd hh (decDigits_ne_nil n)
    | cons a l => rfl
  unfold pyInt?
  rw [hne, hall]
  simp only [Bool.not_false, Bool.true_and, if_true]
  rw [decDigits_foldl]

theorem goodTitle_spec (t : Title) (hg : goodTitle t = true) :
    t ≠ [] ∧ (∀ c ∈ t, c ≠ '\t' ∧ c ≠ '\n' ∧ c ≠ '\r') ∧
      pyWhitespace (t.reverse.headD ' ') = false := by
  unfold goodTitle at hg
  simp only [Bool.and_eq_true] at hg
  obtain ⟨⟨h1, h2⟩, h3⟩ := hg
  refine ⟨?_, ?_, ?_⟩
  · intro he
    rw [he] at h1
    exact absurd h1 (by decide)
  · intro c hc
    have := List.all_eq_true.mp h2 c hc
    simp only [Bool.and_eq_true, Bool.not_eq_true', beq_eq_false_iff_ne]
      at this
    exact ⟨this.1.1, this.1.2, this.2⟩
  · simpa [Bool.not_eq_true'] using h3

theorem dropWhile_cons_false (p : Char → Bool) (a : Char) (l : List Char)
    (h : p a = false) : List.dropWhile p (a :: l) = a :: l := by
  rw [List.dropWhile_cons, h]
  simp

/-- `line.strip()` on a writer-produced sidecar line for a good title
removes exactly the trailing newline. -/
theorem pyStrip_sidecarLine (i : Nat) (t : Title) (hg : goodTitle t = true) :
    pyStrip (sidecarLine i t) = decDigits i ++ '\t' :: t := by
  obtain ⟨hne, _, hlast⟩ := goodTitle_spec t hg
  have hA : sidecarLine i t = (decDigits i ++ '\t' :: t) ++ ['\n'] := by
    show decDigits i ++ '\t' :: (t ++ ['\n']) = _
    rw [List.append_assoc]
    rfl
  obtain ⟨c0, cs0, hc0⟩ := List.exists_cons_of_ne_nil (decDigits_ne_nil i)
  obtain ⟨d0, hd0, hcd0⟩ := decDigits_shape i c0
    (by rw [hc0]; exact List.mem_cons_self _ _)
  obtain ⟨c1, cs1, hc1⟩ : ∃ c cs, t.reverse = c :: cs := by
    have hrne : t.reverse ≠ [] := by simpa using hne
    obtain ⟨c, cs, hcc⟩ := List.exists_cons_of_ne_nil hrne
    exact ⟨c, cs, hcc⟩
  have hws1 : pyWhitespace c1 = false := by
    rw [hc1] at hlast
    exact hlast
  unfold pyStrip
  rw [hA]
  have hfront : List.dropWhile pyWhitespace
      ((decDigits i ++ '\t' :: t) ++ ['\n']) =
        (decDigits i ++ '\t' :: t) ++ ['\n'] := by
    rw [hc0, List.cons_append, List.cons_append]
    apply dropWhile_cons_false
    rw [hcd0]
    exact (digitChar_facts d0 hd0).2.1
  rw [hfront, List.reverse_append,
    show (['\n'] : List Char).reverse = ['\n'] from rfl,
    List.singleton_append, List.dropWhile_cons,
    show pyWhitespace '\n' = true by decide]
  simp only [if_true]
  have hback : List.dropWhile pyWhitespace (decDigits i ++ '\t' :: t).reverse
      = (decDigits i ++ '\t' :: t).reverse := by
    rw [List.reverse_append, List.reverse_cons, hc1, List.cons_append,
      List.cons_append]
    exact dropWhile_cons_false _ _ _ hws1
  rw [hback, List.reverse_reverse]

theorem splitTab_no_tab (b : List Char) (hb : ∀ c ∈ b, c ≠ '\t') :
    splitTab b = [b] := by
  induction b with
  | nil => rfl
  | cons c r ih =>
    unfold splitTab
    rw [if_neg (hb c (List.mem_cons_self _ _)),
      ih (fun x hx => hb x (List.mem_cons_of_mem _ hx))]

theorem splitTab_append (a b : List Char) (ha : ∀ c ∈ a, c ≠ '\t')
    (hb : ∀ c ∈ b, c ≠ '\t') : splitTab (a ++ '\t' :: b) = [a, b] := by
  induction a with
  | nil =>
    show splitTab ('\t' :: b) = [[], b]
    unfold splitTab
    rw [if_pos rfl, splitTab_no_tab b hb]
  | cons c a' ih =>
    show splitTab (c :: (a' ++ '\t' :: b)) = [c :: a', b]
    unfold splitTab
    rw [if_neg (ha c (List.mem_cons_self _ _)),
      ih (fun x hx => ha x (List.mem_cons_of_mem _ hx))]

/-- Loading one writer-produced line of a good title inserts exactly that
id/title pair. -/
theorem loadLine_sidecarLine (bd : BiDict) (i : Nat) (t : Title)
    (hg : goodTitle t = true) :
    loadLine bd (sidecarLine i t) = bd.setItem i t := by
  unfold loadLine
  have hnotab : ∀ c ∈ decDigits i, c ≠ '\t' := by
    intro c hc
    obtain ⟨d, hd, hcd⟩ := decDigits_shape i c hc
    rw [hcd]
    exact (digitChar_facts d hd).2.2.1
  rw [pyStrip_sidecarLine i t hg,
    splitTab_append _ _ hnotab (fun c hc => ((goodTitle_spec t hg).2.1 c hc).1)]
  dsimp only
  rw [pyInt?_decDigits]

/-! ### Interned titles occur in the input -/

theorem titlesOf_acc (S : List (Title × List Title)) :
    ∀ b, S.foldr (fun r acc => r.1 :: (r.2 ++ acc)) b = titlesOf S ++ b := by
  induction S with
  | nil => intro b; rfl
  | cons r S ih =>
    intro b
    show r.1 :: (r.2 ++ S.foldr _ b) = (r.1 :: (r.2 ++ titlesOf S)) ++ b
    rw [ih b]
    simp [List.append_assoc]

theorem titlesOf_append (S : List (Title × List Title))
    (r : Title × List Title) :
    titlesOf (S ++ [r]) = titlesOf S ++ (r.1 :: r.2) := by
  show (S ++ [r]).foldr _ [] = _
  rw [List.foldr_append]
  rw [show ([r].foldr (fun r acc => r.1 :: (r.2 ++ acc)) []) =
    r.1 :: (r.2 ++ []) from rfl]
  rw [titlesOf_acc S, List.append_nil]

theorem internEdges_fold_new_key (ts : List Title) :
    ∀ (st : WriterState) (acc : List Nat) (u : Title),
      dictGet? st.node_map u = none →
      (dictGet? (ts.foldl internEdges (st, acc)).1.node_map u).isSome = true →
      u ∈ ts := by
  induction ts with
  | nil =>
    intro st acc u hnone hsome
    simp only [List.foldl_nil] at hsome
    rw [hnone] at hsome
    exact absurd hsome (by decide)
  | cons v ts ih =>
    intro st acc u hnone hsome
    rw [List.foldl_cons, internEdges_cons] at hsome
    cases hc : dictGet? (internTitle st v).node_map u with
    | some j =>
      rw [(internTitle_new_id st v u j hnone hc).2]
      exact List.mem_cons_self _ _
    | none => exact List.mem_cons_of_mem _ (ih _ _ u hc hsome)

theorem processRecord_new_key (st : WriterState) (r : Title × List Title)
    (u : Title) (hnone : dictGet? st.node_map u = none)
    (hsome : (dictGet? (processRecord st r).node_map u).isSome = true) :
    u = r.1 ∨ u ∈ r.2 := by
  rw [processRecord_node_map] at hsome
  cases hc : dictGet? (internTitle st r.1).node_map u with
  | some j => exact Or.inl (internTitle_new_id st r.1 u j hnone hc).2
  | none => exact Or.inr (internEdges_fold_new_key r.2 _ [] u hc hsome)

theorem interned_occurs (S : List (Title × List Title)) :
    ∀ u, (dictGet? (pass1 S).node_map u).isSome = true → u ∈ titlesOf S := by
  induction S using List.reverseRecOn with
  | nil =>
    intro u h
    simp [pass1, initialWriter, dictGet?] at h
  | append_singleton S r ih =>
    intro u h
    rw [pass1_append] at h
    rw [titlesOf_append]
    cases hc : dictGet? (pass1 S).node_map u with
    | some j => exact List.mem_append.mpr (Or.inl (ih u (by rw [hc]; rfl)))
    | none =>
      rcases processRecord_new_key _ r u hc h with h2 | h2
      · exact List.mem_append.mpr (Or.inr (by
          rw [h2]; exact List.mem_cons_self _ _))
      · exact List.mem_append.mpr (Or.inr (List.mem_cons_of_mem _ h2))

/-- An injective association list with distinct keys has distinct values. -/
theorem snd_nodup_of_inj (m : List (Title × Nat))
    (hknd : (m.map Prod.fst).Nodup)
    (hinj : ∀ t u i, dictGet? m t = some i → dictGet? m u = some i → t = u) :
    (m.map Prod.snd).Nodup := by
  induction m with
  | nil => simp
  | cons p rest ih =>
    simp only [List.map_cons, List.nodup_cons] at hknd ⊢
    constructor
    · intro hmem
      obtain ⟨q, hq, hq2⟩ := List.mem_map.mp hmem
      have hq1ne : q.1 ≠ p.1 := by
        intro he
        exact hknd.1 (he ▸ List.mem_map.mpr ⟨q, hq, rfl⟩)
      have hgq : dictGet? (p :: rest) q.1 = some q.2 := by
        rw [dictGet?_cons, if_neg (fun hh => hq1ne hh.symm)]
        exact dictGet?_eq_some_of_mem_nodup rest q.1 q.2 hknd.2 hq
      have hgp : dictGet? (p :: rest) p.1 = some p.2 := by
        rw [dictGet?_cons, if_pos rfl]
      have := hinj q.1 p.1 p.2 (by rw [hq2] at hgq; exact hgq) hgp
      exact hq1ne this
    · apply ih hknd.2
      intro t u i h1t h2u
      have hmt : t ∈ rest.map Prod.fst :=
        List.mem_map.mpr ⟨(t, i), mem_of_dictGet?_eq_some _ _ _ h1t, rfl⟩
      have hmu : u ∈ rest.map Prod.fst :=
        List.mem_map.mpr ⟨(u, i), mem_of_dictGet?_eq_some _ _ _ h2u, rfl⟩
      apply hinj t u i
      · rw [dictGet?_cons, if_neg (fun hh => hknd.1 (by rw [hh]; exact hmt))]
        exact h1t
      · rw [dictGet?_cons, if_neg (fun hh => hknd.1 (by rw [hh]; exact hmu))]
        exact h2u

/-! ### The bidirectional map built from distinct pairs -/

theorem bidict_fold_forward_untouched (m : List (Title × Nat)) :
    ∀ (bd : BiDict) (i : Nat), (∀ p ∈ m, p.2 ≠ i) →
      dictGet? (m.foldl (fun bd p => bd.setItem p.2 p.1) bd).forward i =
        dictGet? bd.forward i := by
  induction m with
  | nil => intro bd i _; rfl
  | cons p rest ih =>
    intro bd i h
    rw [List.foldl_cons, ih _ i (fun q hq => h q (List.mem_cons_of_mem _ hq))]
    show dictGet? (dictSet bd.forward p.2 p.1) i = _
    exact dictGet?_dictSet_ne _ _ _ _
      (fun he => h p (List.mem_cons_self _ _) he.symm)

theorem bidict_fold_backward_untouched (m : List (Title × Nat)) :
    ∀ (bd : BiDict) (t : Title), (∀ p ∈ m, p.1 ≠ t) →
      dictGet? (m.foldl (fun bd p => bd.setItem p.2 p.1) bd).backward t =
        dictGet? bd.backward t := by
  induction m with
  | nil => intro bd t _; rfl
  | cons p rest ih =>
    intro bd t h
    rw [List.foldl_cons, ih _ t (fun q hq => h q (List.mem_cons_of_mem _ hq))]
    show dictGet? (dictSet bd.backward p.1 p.2) t = _
    exact dictGet?_dictSet_ne _ _ _ _
      (fun he => h p (List.mem_cons_self _ _) he.symm)

theorem bidict_fold_forward_mem (m : List (Title × Nat)) :
    ∀ (bd : BiDict) (t : Title) (i : Nat), (t, i) ∈ m →
      (m.map Prod.snd).Nodup →
      dictGet? (m.foldl (fun bd p => bd.setItem p.2 p.1) bd).forward i =
        some t := by
  induction m with
  | nil => intro bd t i h _; simp at h
  | cons p rest ih =>
    intro bd t i hmem hnd
    simp only [List.map_cons, List.nodup_cons] at hnd
    rw [List.foldl_cons]
    rcases List.mem_cons.mp hmem with h | h
    · have hp : p = (t, i) := h.symm
      subst hp
      rw [bidict_fold_forward_untouched rest _ i
        (fun q hq he => hnd.1 (he ▸ List.mem_map.mpr ⟨q, hq, rfl⟩))]
      show dictGet? (dictSet bd.forward i t) i = some t
      exact dictGet?_dictSet_self _ _ _
    · exact ih _ t i h hnd.2

theorem bidict_fold_backward_mem (m : List (Title × Nat)) :
    ∀ (bd : BiDict) (t : Title) (i : Nat), (t, i) ∈ m →
      (m.map Prod.fst).Nodup →
      dictGet? (m.foldl (fun bd p => bd.setItem p.2 p.1) bd).backward t =
        some i := by
  induction m with
  | nil => intro bd t i h _; simp at h
  | cons p rest ih =>
    intro bd t i hmem hnd
    simp only [List.map_cons, List.nodup_cons] at hnd
    rw [List.foldl_cons]
    rcases List.mem_cons.mp hmem with h | h
    · have hp : p = (t, i) := h.symm
      subst hp
      rw [bidict_fold_backward_untouched rest _ t
        (fun q hq he => hnd.1 (he ▸ List.mem_map.mpr ⟨q, hq, rfl⟩))]
      show dictGet? (dictSet bd.backward t i) t = some i
      exact dictGet?_dictSet_self _ _ _
    · exact ih _ t i h hnd.2

theorem load_fold (m : List (Title × Nat)) :
    ∀ bd : BiDict, (∀ p ∈ m, goodTitle p.1 = true) →
      (m.map (fun p => sidecarLine p.2 p.1)).foldl loadLine bd =
        m.foldl (fun bd p => bd.setItem p.2 p.1) bd := by
  induction m with
  | nil => intro bd _; rfl
  | cons p rest ih =>
    intro bd h
    rw [List.map_cons, List.foldl_cons, List.foldl_cons,
      loadLine_sidecarLine bd p.2 p.1 (h p (List.mem_cons_self _ _))]
    exact ih _ (fun q hq => h q (List.mem_cons_of_mem _ hq))

/-- C8 (amended).  Title round-trip through the sidecar: when every title
occurring in the input is non-empty, free of TAB/LF/CR and does not end in
a whitespace character (the reader's `line.strip()` would otherwise alter
it), then after the writer emits the sidecar and the reader loads it,
`id_of(title_of(i)) = i` for every assigned id `i < current_node_id`, and
`title_of(id_of(t)) = t` byte-for-byte for every interned title `t`. -/
theorem C8_sidecar_roundTrip (S : List (Title × List Title))
    (hgood : ∀ t ∈ titlesOf S, goodTitle t = true) :
    (∀ i, i < (pass1 S).current_node_id →
      ∃ t, (load_title_map (pass1 S).mapfile).getTitle i = some t ∧
        (load_title_map (pass1 S).mapfile).getId t = some i) ∧
    (∀ t sid, idOf S t = some sid →
      (load_title_map (pass1 S).mapfile).getTitle sid = some t ∧
        (load_title_map (pass1 S).mapfile).getId t = some sid) := by
  have hinv := pass1_inv S
  have hkeysgood : ∀ p ∈ (pass1 S).node_map, goodTitle p.1 = true := by
    intro p hp
    apply hgood
    apply interned_occurs S p.1
    rw [dictGet?_eq_some_of_mem_nodup _ _ _ hinv.keysNodup hp]
    rfl
  have hload : load_title_map (pass1 S).mapfile =
      (pass1 S).node_map.foldl (fun bd p => bd.setItem p.2 p.1)
        BiDict.empty := by
    unfold load_title_map
    rw [hinv.lines]
    exact load_fold _ BiDict.empty hkeysgood
  have hsnd : ((pass1 S).node_map.map Prod.snd).Nodup :=
    snd_nodup_of_inj _ hinv.keysNodup hinv.inj
  constructor
  · intro i hi
    obtain ⟨t, ht⟩ := hinv.surj i hi
    have hmem : (t, i) ∈ (pass1 S).node_map :=
      mem_of_dictGet?_eq_some _ _ _ ht
    refine ⟨t, ?_, ?_⟩
    · rw [hload]
      exact bidict_fold_forward_mem _ _ t i hmem hsnd
    · rw [hload]
      exact bidict_fold_backward_mem _ _ t i hmem hinv.keysNodup
  · intro t sid hts
    have hmem : (t, sid) ∈ (pass1 S).node_map :=
      mem_of_dictGet?_eq_some _ _ _ hts
    refine ⟨?_, ?_⟩
    · rw [hload]
      exact bidict_fold_forward_mem _ _ t sid hmem hsnd
    · rw [hload]
      exact bidict_fold_backward_mem _ _ t sid hmem hinv.keysNodup

/-- Witness for `C8_sidecar_roundTrip` on `[("A", ["B"])]`. -/
theorem C8_sidecar_roundTrip_witness :
    (∀ t ∈ titlesOf [(['A'], [['B']])], goodTitle t = true) ∧
      ((∀ i, i < (pass1 [(['A'], [['B']])]).current_node_id →
        ∃ t, (load_title_map (pass1 [(['A'], [['B']])]).mapfile).getTitle i =
            some t ∧
          (load_title_map (pass1 [(['A'], [['B']])]).mapfile).getId t =
            some i) ∧
      (∀ t sid, idOf [(['A'], [['B']])] t = some sid →
        (load_title_map (pass1 [(['A'], [['B']])]).mapfile).getTitle sid =
            some t ∧
          (load_title_map (pass1 [(['A'], [['B']])]).mapfile).getId t =
            some sid)) :=
  ⟨by decide, C8_sidecar_roundTrip [(['A'], [['B']])] (by decide)⟩

/-- C8 (counterexample).  The title `"A "` (trailing space, no tab or
newline) does not survive the sidecar: the reader's `line.strip()` eats the
space, so `title_of(0) = "A" ≠ "A "` and `id_of("A ")` is absent — the
byte-for-byte round-trip of the claim fails. -/
theorem C8_counterexample :
    idOf [(['A', ' '], [])] ['A', ' '] = some 0 ∧
      (load_title_map (pass1 [(['A', ' '], [])]).mapfile).getId
        ['A', ' '] = none ∧
      (load_title_map (pass1 [(['A', ' '], [])]).mapfile).getTitle 0 =
        some ['A'] ∧
      (['A'] : Title) ≠ ['A', ' '] := by decide

end WikiGraph
